import Mathlib

/-!
# Option extractor of `vowpalwabbit/slim/src/opts.cc`

A shallow embedding of `vw_slim::find_opt`, `find_opt_parse`, `find_opt_int`
and `find_opt_float`, followed by theorems about them.

A `std::string` is a list of characters, a `size_t` index is a natural number
(all indices stay within the buffer length plus one, so no wrap-around is
involved), and `std::vector<std::string>` is a list of strings.
-/

namespace vw_slim

/-- The `std::string` of the source: a sequence of characters. -/
abbrev Str := List Char

/-- The `std::isspace` of the "C" locale: space, `\t`, `\n`, `\v`, `\f`, `\r`. -/
def isspace (c : Char) : Bool :=
  c == ' ' || c == '\t' || c == '\n' || c == '\x0b' || c == '\x0c' || c == '\r'

/-- The test `c >= '0' && c <= '9'` of line 30. -/
def isdigit09 (c : Char) : Bool :=
  decide ('0' ≤ c) && decide (c ≤ '9')

/-- The first index at which `needle` occurs in `s`, relative to the start of `s`. -/
def findAux (needle : Str) : Str → Option Nat
  | [] => if needle = [] then some 0 else none
  | c :: cs =>
    if needle.isPrefixOf (c :: cs) then some 0
    else (findAux needle cs).map (· + 1)

/-- The `std::string::find (needle, pos)` of the standard library: the smallest index
`idx ≥ pos` at which `needle` occurs in `s`, and `none` (for `npos`) when there is none. -/
def string_find (s needle : Str) (pos : Nat) : Option Nat :=
  if pos ≤ s.length then (findAux needle (s.drop pos)).map (pos + ·) else none

/-- The loop `for (; i < s.size() && p(s[i]); ++i);`, run on the characters from index `i`
on: the index it stops at. -/
def scanWhile (p : Char → Bool) : Str → Nat → Nat
  | [], i => i
  | c :: cs, i => if p c then scanWhile p cs (i + 1) else i

/-- The `std::string::substr (pos, n)` of the standard library. -/
def substr (s : Str) (pos n : Nat) : Str :=
  (s.drop pos).take n

/-- How one run of the body of the `for` loop of `find_opt` ends. -/
inductive Step where
  /-- The body executed `return`, the output vector being as given. -/
  | ret (out_values : List Str) : Step
  /-- The body reached its end or `continue`, with the new `start` and output vector. -/
  | next (start : Nat) (out_values : List Str) : Step
  deriving DecidableEq, Repr

/-- The body of the `for` loop of the three-argument `find_opt` (lines 16-45), entered with
`start < command_line_args.size()`; `arg_name` already has the space appended. -/
def find_opt_body (command_line_args arg_name : Str) (start : Nat)
    (out_values : List Str) : Step :=
  match string_find command_line_args arg_name start with
  | none => Step.ret out_values
  | some idx =>
    let idx_after_arg :=
      scanWhile isspace (command_line_args.drop (idx + arg_name.length))
        (idx + arg_name.length)
    if idx_after_arg = command_line_args.length then Step.ret out_values
    else if command_line_args.getD idx_after_arg ' ' = '-' ∧
        ¬ (idx_after_arg + 1 < command_line_args.length ∧
          isdigit09 (command_line_args.getD (idx_after_arg + 1) ' ') = true) then
      Step.next idx_after_arg out_values
    else
      let idx_after_value :=
        scanWhile (fun c => !isspace c) (command_line_args.drop idx_after_arg) idx_after_arg
      let value_size := idx_after_value - idx_after_arg
      let out_values :=
        if value_size > 0 then
          out_values ++ [substr command_line_args idx_after_arg value_size]
        else out_values
      Step.next (idx_after_arg + 1) out_values

/-- The `for` loop of `find_opt` (line 14), each run of the body costing one unit of
fuel: `none` when the fuel runs out before the loop ends. -/
def find_opt_loop (command_line_args arg_name : Str) :
    Nat → Nat → List Str → Option (List Str)
  | 0, start, out_values =>
    if start < command_line_args.length then none else some out_values
  | fuel + 1, start, out_values =>
    if start < command_line_args.length then
      match find_opt_body command_line_args arg_name start out_values with
      | Step.ret out => some out
      | Step.next start out => find_opt_loop command_line_args arg_name fuel start out
    else some out_values

/-- The three-argument `find_opt` (lines 8-47): the final contents of `out_values`.
The fuel given is the buffer length. -/
def find_opt3 (command_line_args arg_name : Str) (out_values : List Str) :
    Option (List Str) :=
  find_opt_loop command_line_args (arg_name ++ [' ']) command_line_args.length 0 out_values

/-- The two-argument `find_opt` (lines 49-54). -/
def find_opt (command_line_args arg_name : Str) : Option (List Str) :=
  find_opt3 command_line_args arg_name []

/-- The template `find_opt_parse<T, S, F>` (lines 56-67): `F` is `parse` followed by the
cast to `T`. The result is the returned `bool` and the final contents of `value`. -/
def find_opt_parse {T : Type} (parse : Str → T) (command_line_args arg_name : Str)
    (value : T) : Option (Bool × T) :=
  (find_opt command_line_args arg_name).map fun opts =>
    if opts.length ≠ 1 then (false, value)
    else (true, parse (opts.headD []))

/-- The `find_opt_float` of lines 69-72; the library `atof` and the cast from `double` to
`float` are parameters. -/
def find_opt_float {D Fl : Type} (atof : Str → D) (toFloat : D → Fl)
    (command_line_args arg_name : Str) (value : Fl) : Option (Bool × Fl) :=
  find_opt_parse (fun s => toFloat (atof s)) command_line_args arg_name value

/-- The value of a decimal digit character. -/
def digitVal (c : Char) : Nat := c.toNat - '0'.toNat

/-- The number a string of decimal digits denotes, most significant digit first. -/
def decVal (ds : Str) : Nat :=
  ds.foldl (fun acc c => 10 * acc + digitVal c) 0

/-- The representation of an integer in a 32-bit two's complement `int`. -/
def toInt32 (x : Int) : Int :=
  (x + 2 ^ 31) % 2 ^ 32 - 2 ^ 31

/-- Modelled from the spec: the C library function `atoi` is not part of the sources. It
skips leading white space, reads an optional sign and then the longest run of decimal
digits, and yields the number read (zero when there is no digit) as an `int`. -/
def atoi (s : Str) : Int :=
  match s.dropWhile isspace with
  | '-' :: rest => toInt32 (- (decVal (rest.takeWhile isdigit09) : Int))
  | '+' :: rest => toInt32 (decVal (rest.takeWhile isdigit09))
  | rest => toInt32 (decVal (rest.takeWhile isdigit09))

/-- The `find_opt_int` of lines 74-77. -/
def find_opt_int (command_line_args arg_name : Str) (value : Int) : Option (Bool × Int) :=
  find_opt_parse atoi command_line_args arg_name value

/-- The classification of lines 28-30 read on the text that starts at `idx_after_arg`: a
dash that is not followed by a decimal digit. -/
def dashLed : Str → Bool
  | [] => false
  | c :: rest => c == '-' && !isdigit09 (rest.headD ' ')

/-- The values the scan extracts from the text `s` that is still ahead of `start`, for the
flag `F`: the loop of `find_opt` as a recursion on the rest of the buffer. -/
def vals (F : Str) (s : Str) : List Str :=
  match findAux (F ++ [' ']) s with
  | none => []
  | some k =>
    match h : (s.drop (k + (F.length + 1))).dropWhile isspace with
    | [] => []
    | c :: rest =>
      if dashLed (c :: rest) then vals F (c :: rest)
      else (c :: rest).takeWhile (fun x => !isspace x) :: vals F rest
termination_by s.length
decreasing_by
  all_goals
    have h1 := congrArg List.length h
    have h2 := (List.dropWhile_suffix (l := s.drop (k + (F.length + 1))) isspace).length_le
    simp only [List.length_cons, List.length_drop] at h1 h2 ⊢
    omega

/-- The text that follows the first occurrence of the flag and its space in `s`. -/
def afterFirst (F s : Str) : Option Str :=
  (findAux (F ++ [' ']) s).map fun k => s.drop (k + (F.length + 1))

/-- What the scan extracts once an occurrence of the flag and its space has been passed,
`X` being the text after the space. -/
def valsAfter (F X : Str) : List Str :=
  match X.dropWhile isspace with
  | [] => []
  | c :: rest =>
    if dashLed (c :: rest) then vals F (c :: rest)
    else (c :: rest).takeWhile (fun x => !isspace x) :: vals F rest

/-- A string without any white space character. -/
def wsFree (t : Str) : Prop := ∀ c ∈ t, isspace c = false

/-- A string of white space characters only. -/
def allWs (w : Str) : Prop := ∀ c ∈ w, isspace c = true

/-- A string that is empty or starts with a white space character: what may follow a
maximal token. -/
def tokenEnd (post : Str) : Prop := ∀ c ∈ post.head?, isspace c = true

instance : DecidablePred wsFree := fun t => by
  unfold wsFree
  infer_instance

instance : DecidablePred allWs := fun t => by
  unfold allWs
  infer_instance

instance : DecidablePred tokenEnd := fun t => by
  unfold tokenEnd
  infer_instance

/-- The maximal runs of characters other than white space of `s`, from left to right. -/
def tokens (s : Str) : List Str :=
  (s.splitOnP isspace).filter fun t => !t.isEmpty

/-- The tokens `ts`, each with a space put in front, written one after the other. -/
def spaced : List Str → Str
  | [] => []
  | t :: ts => ' ' :: (t ++ spaced ts)

/-- The reference list of the values of a repeated flag, in the words of the spec: among
the tokens `t1 .. tn` taken in order, every token that comes right after a token ending
with `F` and that is not dash-led. -/
def followers (F : Str) : List Str → List Str
  | [] => []
  | [_] => []
  | t1 :: t2 :: rest =>
    (if F <:+ t1 ∧ dashLed t2 = false then [t2] else []) ++ followers F (t2 :: rest)

/-- The string `u` without its leading sign, when it has one. -/
def digitsOf : Str → Str
  | [] => []
  | c :: cs => if c = '+' ∨ c = '-' then cs else c :: cs

/-- In the words of the spec: a string made of an optional sign, `+` or `-`, followed by
one or more decimal digits. -/
def isNumeral (u : Str) : Prop :=
  digitsOf u ≠ [] ∧ ∀ c ∈ digitsOf u, isdigit09 c = true

/-- The integer a numeral denotes. -/
def numeralVal (u : Str) : Int :=
  if u.head? = some '-' then - (decVal (digitsOf u) : Int) else (decVal (digitsOf u) : Int)

instance : DecidablePred isNumeral := fun u => by
  unfold isNumeral
  infer_instance

/-- At index `p` the buffer reads the flag name followed by a space. -/
def occursAt (B F : Str) (p : Nat) : Prop :=
  F ++ [' '] <+: B.drop p

/-- The buffer from the first character other than white space that comes after the flag
name at index `p` and its space. -/
def textAfter (B F : Str) (p : Nat) : Str :=
  (B.drop (p + (F.length + 1))).dropWhile isspace

/-- The maximal token that follows the flag name at index `p`, its space and any further
white space; empty when the buffer ends there. -/
def tokenAfter (B F : Str) (p : Nat) : Str :=
  (textAfter B F p).takeWhile fun x => !isspace x

/-- At index `p` the buffer reads the flag name, a space, white space, and then a token
that is not dash-led. -/
def valueAt (B F : Str) (p : Nat) : Prop :=
  occursAt B F p ∧ tokenAfter B F p ≠ [] ∧ dashLed (tokenAfter B F p) = false

/-- The text `pre` ends with the flag name, a space and white space only: what comes
right after `pre` is what the scan reads as the value of that occurrence of the flag. -/
def precededByFlag (F pre : Str) : Prop :=
  ∃ pre0 w0, pre = pre0 ++ F ++ ' ' :: w0 ∧ allWs w0

instance (B F : Str) (p : Nat) : Decidable (occursAt B F p) := by
  unfold occursAt
  infer_instance

instance (B F : Str) (p : Nat) : Decidable (valueAt B F p) := by
  unfold valueAt
  infer_instance

/-- The number of indices of the buffer at which the flag name followed by a space
occurs. -/
def occurrenceCount (B F : Str) : Nat :=
  (List.range (B.length + 1)).countP fun p => decide (occursAt B F p)

/-! ## The loop and its recursive form -/

theorem findAux_spec (needle : Str) : ∀ (s : Str) (k : Nat), findAux needle s = some k →
    k + needle.length ≤ s.length ∧ needle <+: s.drop k
  | [], k, h => by
    simp only [findAux] at h
    split at h
    · rename_i hn
      cases h
      subst hn
      simp
    · cases h
  | c :: cs, k, h => by
    simp only [findAux] at h
    split at h
    · rename_i hp
      cases h
      have hp2 : needle <+: c :: cs := List.isPrefixOf_iff_prefix.mp hp
      exact ⟨by simpa using hp2.length_le, by simpa using hp2⟩
    · cases hf : findAux needle cs with
      | none => simp [hf] at h
      | some j =>
        simp only [hf, Option.map_some', Option.some.injEq] at h
        subst h
        have ih := findAux_spec needle cs j hf
        exact ⟨by simp only [List.length_cons]; omega, by simpa using ih.2⟩

theorem findAux_min (needle : Str) : ∀ (s : Str) (k : Nat), findAux needle s = some k →
    ∀ j, j < k → ¬ needle <+: s.drop j
  | [], k, h, j, hj => by
    simp only [findAux] at h
    split at h
    · cases h
      omega
    · cases h
  | c :: cs, k, h, j, hj => by
    simp only [findAux] at h
    split at h
    · cases h
      omega
    · rename_i hp
      cases hf : findAux needle cs with
      | none => simp [hf] at h
      | some k1 =>
        simp only [hf, Option.map_some', Option.some.injEq] at h
        subst h
        cases j with
        | zero =>
          intro hpre
          exact hp (List.isPrefixOf_iff_prefix.mpr hpre)
        | succ j1 => simpa using findAux_min needle cs k1 hf j1 (by omega)

/-- The index `string_find` yields is the smallest one, from `pos` on, at which the needle
occurs. -/
theorem string_find_some (s needle : Str) (pos idx : Nat)
    (h : string_find s needle pos = some idx) :
    pos ≤ idx ∧ idx + needle.length ≤ s.length ∧ needle <+: s.drop idx ∧
      ∀ j, pos ≤ j → j < idx → ¬ needle <+: s.drop j := by
  unfold string_find at h
  split at h
  · rename_i hle
    cases hf : findAux needle (s.drop pos) with
    | none => simp [hf] at h
    | some k =>
      simp only [hf, Option.map_some', Option.some.injEq] at h
      subst h
      obtain ⟨h1, h2⟩ := findAux_spec needle _ k hf
      simp only [List.length_drop] at h1
      refine ⟨by omega, by omega, by simpa [List.drop_drop] using h2, ?_⟩
      intro j hj1 hj2 hpre
      have := findAux_min needle _ k hf (j - pos) (by omega)
      rw [List.drop_drop] at this
      have e : pos + (j - pos) = j := by omega
      rw [e] at this
      exact this hpre
  · cases h

theorem scanWhile_eq (p : Char → Bool) : ∀ (s : Str) (i : Nat),
    scanWhile p s i = i + (s.takeWhile p).length
  | [], i => by simp [scanWhile]
  | c :: cs, i => by
    by_cases hc : p c = true
    · simp [scanWhile, hc, scanWhile_eq p cs (i + 1)]
      omega
    · simp [scanWhile, hc]

theorem drop_takeWhile_length (p : Char → Bool) : ∀ (s : Str),
    s.drop (s.takeWhile p).length = s.dropWhile p
  | [] => by simp
  | c :: cs => by
    by_cases hc : p c = true
    · simp [List.takeWhile_cons, List.dropWhile_cons, hc, drop_takeWhile_length p cs]
    · simp [List.takeWhile_cons, List.dropWhile_cons, hc]

theorem vals_none (F s : Str) (h : findAux (F ++ [' ']) s = none) : vals F s = [] := by
  rw [vals]
  simp [h]

theorem vals_some_nil (F s : Str) (k : Nat) (h : findAux (F ++ [' ']) s = some k)
    (h2 : (s.drop (k + (F.length + 1))).dropWhile isspace = []) : vals F s = [] := by
  rw [vals]
  simp only [h]
  split
  · rfl
  · rename_i c rest h3
    rw [h2] at h3
    cases h3

theorem vals_some_dash (F s : Str) (k : Nat) (c : Char) (rest : Str)
    (h : findAux (F ++ [' ']) s = some k)
    (h2 : (s.drop (k + (F.length + 1))).dropWhile isspace = c :: rest)
    (hd : dashLed (c :: rest) = true) : vals F s = vals F (c :: rest) := by
  rw [vals]
  simp only [h]
  split
  · rename_i h3
    rw [h2] at h3
    cases h3
  · rename_i c2 rest2 h3
    rw [h2] at h3
    cases h3
    simp [hd]

theorem vals_some_value (F s : Str) (k : Nat) (c : Char) (rest : Str)
    (h : findAux (F ++ [' ']) s = some k)
    (h2 : (s.drop (k + (F.length + 1))).dropWhile isspace = c :: rest)
    (hd : dashLed (c :: rest) = false) :
    vals F s = (c :: rest).takeWhile (fun x => !isspace x) :: vals F rest := by
  rw [vals]
  simp only [h]
  split
  · rename_i h3
    rw [h2] at h3
    cases h3
  · rename_i c2 rest2 h3
    rw [h2] at h3
    cases h3
    simp [hd]

theorem take_takeWhile_length (p : Char → Bool) : ∀ (s : Str),
    s.take (s.takeWhile p).length = s.takeWhile p
  | [] => by simp
  | c :: cs => by
    by_cases hc : p c = true
    · simp [List.takeWhile_cons, hc, take_takeWhile_length p cs]
    · simp [List.takeWhile_cons, hc]

theorem dropWhile_head_not (p : Char → Bool) (s : Str) (c : Char) (rest : Str)
    (h : s.dropWhile p = c :: rest) : p c = false := by
  induction s with
  | nil => simp at h
  | cons d ds ih =>
    by_cases hd : p d = true
    · simp only [List.dropWhile_cons, hd, if_true] at h
      exact ih h
    · simp only [List.dropWhile_cons, hd] at h
      cases h
      simpa using hd

theorem headD_drop (B : Str) (a : Nat) : (B.drop a).headD ' ' = B.getD a ' ' := by
  rw [List.headD_eq_head?_getD, List.head?_drop, List.getD_eq_getElem?_getD]

/-- One run of the loop body, read on the text from `start` on. -/
theorem find_opt_body_eq (B F : Str) (start : Nat) (out : List Str) (hs : start ≤ B.length) :
    find_opt_body B (F ++ [' ']) start out =
      match findAux (F ++ [' ']) (B.drop start) with
      | none => Step.ret out
      | some k =>
        match ((B.drop start).drop (k + (F.length + 1))).dropWhile isspace with
        | [] => Step.ret out
        | c :: rest =>
          if dashLed (c :: rest) then Step.next (B.length - (rest.length + 1)) out
          else Step.next (B.length - rest.length)
            (out ++ [(c :: rest).takeWhile (fun x => !isspace x)]) := by
  unfold find_opt_body string_find
  simp only [hs, if_true]
  cases hf : findAux (F ++ [' ']) (B.drop start) with
  | none => simp
  | some k =>
    simp only [Option.map_some', List.length_append, List.length_singleton]
    have hk := (findAux_spec _ _ _ hf).1
    simp only [List.length_append, List.length_singleton, List.length_drop] at hk
    rw [scanWhile_eq, List.drop_drop]
    have hadd : start + (k + (F.length + 1)) = start + k + (F.length + 1) := by omega
    rw [hadd]
    generalize hX : B.drop (start + k + (F.length + 1)) = X
    have hXlen : X.length = B.length - (start + k + (F.length + 1)) := by
      rw [← hX, List.length_drop]
    have htl : (X.takeWhile isspace).length ≤ X.length :=
      (List.takeWhile_prefix isspace).length_le
    generalize ha : start + k + (F.length + 1) + (X.takeWhile isspace).length = a
    have hdrop : B.drop a = X.dropWhile isspace := by
      rw [← ha, ← List.drop_drop, hX, drop_takeWhile_length]
    have hale : a ≤ B.length := by omega
    cases hd : X.dropWhile isspace with
    | nil =>
      have : B.length ≤ a := by
        rw [hd] at hdrop
        exact List.drop_eq_nil_iff.mp hdrop
      have hEq : a = B.length := by omega
      simp [hEq]
    | cons c rest =>
      rw [hd] at hdrop
      have hlen : B.length - a = rest.length + 1 := by
        have := congrArg List.length hdrop
        simpa using this
      have hne : a ≠ B.length := by omega
      have hc : B.getD a ' ' = c := by
        rw [← headD_drop, hdrop]
        rfl
      have hrest : B.drop (a + 1) = rest := by
        have : B.drop (a + 1) = (B.drop a).drop 1 := by
          rw [List.drop_drop]
        rw [this, hdrop]
        rfl
      have hc2 : B.getD (a + 1) ' ' = rest.headD ' ' := by
        rw [← headD_drop, hrest]
      have hdig : (a + 1 < B.length ∧ isdigit09 (B.getD (a + 1) ' ') = true) ↔
          isdigit09 (rest.headD ' ') = true := by
        rw [hc2]
        constructor
        · exact fun h => h.2
        · intro h
          refine ⟨?_, h⟩
          cases rest with
          | nil => exact absurd h (by decide)
          | cons d ds =>
            simp only [List.length_cons] at hlen
            omega
      have hcns : isspace c = false := dropWhile_head_not isspace X c rest hd
      have hdl : dashLed (c :: rest) = true ↔
          (c = '-' ∧ ¬ isdigit09 (rest.headD ' ') = true) := by
        simp [dashLed]
      simp only [hne, if_false, hc, hdig, scanWhile_eq, hdrop]
      by_cases hdash : dashLed (c :: rest) = true
      · rw [if_pos (hdl.mp hdash), if_pos hdash]
        congr 1
        omega
      · rw [if_neg (fun h => hdash (hdl.mpr h)), if_neg hdash]
        have hpos : ((c :: rest).takeWhile (fun x => !isspace x)).length > 0 := by
          simp [List.takeWhile_cons, hcns]
        have hsub : substr B a ((c :: rest).takeWhile (fun x => !isspace x)).length =
            (c :: rest).takeWhile (fun x => !isspace x) := by
          unfold substr
          rw [hdrop, take_takeWhile_length]
        have h3 : a + ((c :: rest).takeWhile (fun x => !isspace x)).length - a =
            ((c :: rest).takeWhile (fun x => !isspace x)).length := by omega
        rw [h3, if_pos hpos, hsub]
        congr 1
        omega

theorem findAux_nil (F : Str) : findAux (F ++ [' ']) [] = none := by
  simp [findAux]

/-- With fuel for the characters that are left, the loop returns the output vector
followed by the values of the rest of the buffer. -/
theorem find_opt_loop_eq (B F : Str) : ∀ (fuel start : Nat) (out : List Str),
    B.length - start ≤ fuel →
    find_opt_loop B (F ++ [' ']) fuel start out = some (out ++ vals F (B.drop start)) := by
  intro fuel
  induction fuel with
  | zero =>
    intro start out h
    have hle : B.length ≤ start := by omega
    have hlt : ¬ start < B.length := by omega
    simp only [find_opt_loop, hlt, if_false]
    rw [List.drop_eq_nil_iff.mpr hle, vals_none F [] (findAux_nil F)]
    simp
  | succ fuel ih =>
    intro start out h
    by_cases hlt : start < B.length
    · simp only [find_opt_loop, hlt, if_true]
      rw [find_opt_body_eq B F start out (by omega)]
      cases hf : findAux (F ++ [' ']) (B.drop start) with
      | none => simp [vals_none F _ hf]
      | some k =>
        cases hd : ((B.drop start).drop (k + (F.length + 1))).dropWhile isspace with
        | nil =>
          simp only [hd]
          rw [vals_some_nil F _ k hf hd]
          simp
        | cons c rest =>
          have hsuf : c :: rest <:+ B := by
            rw [← hd]
            exact (List.dropWhile_suffix isspace).trans
              ((List.drop_suffix _ _).trans (List.drop_suffix _ _))
          have hlen : rest.length + 1 ≤ B.length - start - (k + (F.length + 1)) := by
            have h1 := (List.dropWhile_suffix (l := (B.drop start).drop (k + (F.length + 1)))
              isspace).length_le
            rw [hd] at h1
            simp only [List.length_cons, List.length_drop] at h1
            omega
          have hdrop1 : B.drop (B.length - (rest.length + 1)) = c :: rest := by
            have := List.suffix_iff_eq_drop.mp hsuf
            simpa using this.symm
          have hdrop2 : B.drop (B.length - rest.length) = rest := by
            have hsuf2 : rest <:+ B := (List.suffix_cons c rest).trans hsuf
            exact (List.suffix_iff_eq_drop.mp hsuf2).symm
          by_cases hdash : dashLed (c :: rest) = true
          · simp only [hd, hdash, if_true]
            rw [ih _ _ (by omega), hdrop1, vals_some_dash F _ k c rest hf hd hdash]
          · have hdf : dashLed (c :: rest) = false := by simpa using hdash
            simp only [hd, hdf, Bool.false_eq_true, if_false]
            rw [ih _ _ (by omega), hdrop2,
              vals_some_value F _ k c rest hf hd hdf]
            simp
    · have hle : B.length ≤ start := by omega
      simp only [find_opt_loop, hlt, if_false]
      rw [List.drop_eq_nil_iff.mpr hle, vals_none F [] (findAux_nil F)]
      simp

theorem find_opt3_eq (B F : Str) (out : List Str) :
    find_opt3 B F out = some (out ++ vals F B) := by
  unfold find_opt3
  rw [find_opt_loop_eq B F B.length 0 out (by omega)]
  simp

theorem find_opt_eq (B F : Str) : find_opt B F = some (vals F B) := by
  unfold find_opt
  rw [find_opt3_eq]
  simp

/-! ## The first occurrence of the flag -/

theorem vals_eq (F s : Str) :
    vals F s = match afterFirst F s with
      | none => []
      | some X => valsAfter F X := by
  unfold afterFirst
  cases hf : findAux (F ++ [' ']) s with
  | none => simp [vals_none F s hf]
  | some k =>
    simp only [Option.map_some', valsAfter]
    cases hd : (s.drop (k + (F.length + 1))).dropWhile isspace with
    | nil => simp [vals_some_nil F s k hf hd]
    | cons c rest =>
      by_cases hdash : dashLed (c :: rest) = true
      · simp [vals_some_dash F s k c rest hf hd hdash, hdash]
      · have hdf : dashLed (c :: rest) = false := by simpa using hdash
        simp [vals_some_value F s k c rest hf hd hdf, hdf]

theorem afterFirst_nil (F : Str) : afterFirst F [] = none := by
  simp [afterFirst, findAux]

theorem afterFirst_start (F s : Str) (h : F ++ [' '] <+: s) :
    afterFirst F s = some (s.drop (F.length + 1)) := by
  cases s with
  | nil =>
    have := h.length_le
    simp at this
  | cons c cs =>
    have hp : (F ++ [' ']).isPrefixOf (c :: cs) = true := List.isPrefixOf_iff_prefix.mpr h
    simp [afterFirst, findAux, hp]

theorem afterFirst_head (F X : Str) : afterFirst F (F ++ ' ' :: X) = some X := by
  rw [afterFirst_start F _ ⟨X, by simp⟩]
  congr 1
  have : F ++ ' ' :: X = (F ++ [' ']) ++ X := by simp
  rw [this, List.drop_append_of_le_length (by simp)]
  simp

theorem afterFirst_cons (F : Str) (c : Char) (l : Str) (h : ¬ F ++ [' '] <+: c :: l) :
    afterFirst F (c :: l) = afterFirst F l := by
  have hp : (F ++ [' ']).isPrefixOf (c :: l) = false := by
    cases hb : (F ++ [' ']).isPrefixOf (c :: l) with
    | false => rfl
    | true => exact absurd (List.isPrefixOf_iff_prefix.mp hb) h
  unfold afterFirst
  simp only [findAux, hp, Bool.false_eq_true, if_false, Option.map_map]
  congr 1
  funext k
  show List.drop (k + 1 + (F.length + 1)) (c :: l) = List.drop (k + (F.length + 1)) l
  rw [show k + 1 + (F.length + 1) = (k + (F.length + 1)) + 1 by omega, List.drop_succ_cons]

theorem afterFirst_some (F s X : Str) (h : afterFirst F s = some X) :
    ∃ pre, s = pre ++ F ++ ' ' :: X := by
  unfold afterFirst at h
  cases hf : findAux (F ++ [' ']) s with
  | none => simp [hf] at h
  | some k =>
    simp only [hf, Option.map_some', Option.some.injEq] at h
    obtain ⟨hlen, r, hr⟩ := findAux_spec _ _ _ hf
    refine ⟨s.take k, ?_⟩
    have h1 : s.drop (k + (F.length + 1)) = r := by
      rw [← List.drop_drop, ← hr, List.drop_append_of_le_length (by simp)]
      simp
    rw [← h, h1]
    have h2 := List.take_append_drop k s
    rw [← hr] at h2
    conv_lhs => rw [← h2]
    simp

theorem afterFirst_nospace (F s : Str) (h : ' ' ∉ s) : afterFirst F s = none := by
  cases hX : afterFirst F s with
  | none => rfl
  | some X =>
    obtain ⟨pre, hpre⟩ := afterFirst_some F s X hX
    exact absurd (by rw [hpre]; simp) h

theorem space_not_mem (t : Str) (h : wsFree t) : ' ' ∉ t :=
  fun hm => absurd (h ' ' hm) (by decide)

theorem vals_wsFree (F s : Str) (h : wsFree s) : vals F s = [] := by
  rw [vals_eq, afterFirst_nospace F s (space_not_mem s h)]

/-- An occurrence of the flag and its space that starts inside `pre` and is a prefix of
`pre ++ F ++ " " ++ X` lies wholly inside `pre`, when the flag has no space in it. -/
theorem occ_disjoint (F pre X : Str) (hF : ' ' ∉ F) (hpre : pre ≠ [])
    (h : F ++ [' '] <+: pre ++ F ++ ' ' :: X) : F ++ [' '] <+: pre := by
  have hp2 : pre <+: pre ++ F ++ ' ' :: X := ⟨F ++ ' ' :: X, by simp⟩
  rcases List.prefix_or_prefix_of_prefix h hp2 with h1 | h1
  · exact h1
  · obtain ⟨v, hv⟩ := h1
    have hlen : pre.length + v.length = F.length + 1 := by
      have := congrArg List.length hv
      simpa using this
    have hpl : 0 < pre.length := List.length_pos.mpr hpre
    obtain ⟨r, hr⟩ := h
    have h3 : v ++ r = F ++ ' ' :: X := by
      have : pre ++ (v ++ r) = pre ++ (F ++ ' ' :: X) := by
        rw [← List.append_assoc, hv, hr]
        simp
      exact List.append_cancel_left this
    rcases List.eq_nil_or_concat v with hv0 | ⟨v1, b, hv1⟩
    · subst hv0
      simp only [List.append_nil] at hv
      exact ⟨[], by simp [hv]⟩
    · exfalso
      subst hv1
      simp only [List.concat_eq_append] at hv hlen h3
      rw [← List.append_assoc] at hv
      obtain ⟨hF1, hb⟩ := List.append_inj' hv rfl
      have hb2 : b = ' ' := by simpa using hb
      subst hb2
      have hle : (v1 ++ [' ']).length ≤ F.length := by
        rw [← hF1]
        simp only [List.length_append, List.length_singleton]
        omega
      have hpf : v1 ++ [' '] <+: F :=
        List.prefix_of_prefix_length_le ⟨r, h3⟩ ⟨' ' :: X, rfl⟩ hle
      exact hF (hpf.subset (by simp))

theorem afterFirst_occ (F X : Str) : ∀ (pre : Str), ' ' ∉ pre ++ F →
    afterFirst F (pre ++ F ++ ' ' :: X) = some X
  | [], _ => by simpa using afterFirst_head F X
  | c :: pre, h => by
    have hF : ' ' ∉ F := fun hm => h (by simp [hm])
    have hno : ¬ F ++ [' '] <+: (c :: pre) ++ F ++ ' ' :: X := by
      intro hp
      have := occ_disjoint F (c :: pre) X hF (by simp) hp
      exact h (List.mem_append_left _ (this.subset (by simp)))
    have hrec := afterFirst_occ F X pre (fun hm => h (by
      rcases List.mem_append.mp hm with h1 | h1
      · simp [h1]
      · simp [h1]))
    rw [← hrec]
    exact afterFirst_cons F c (pre ++ F ++ ' ' :: X) hno

theorem sp_prefix_eq (a b : Str) (hb : ' ' ∉ b) (h : a ++ [' '] <+: b ++ [' ']) : a = b := by
  obtain ⟨v, hv⟩ := h
  rcases List.eq_nil_or_concat v with hv0 | ⟨v1, x, hv1⟩
  · subst hv0
    simp only [List.append_nil] at hv
    exact (List.append_inj' hv rfl).1
  · subst hv1
    simp only [List.concat_eq_append] at hv
    rw [← List.append_assoc] at hv
    have := (List.append_inj' hv rfl).1
    exact absurd (by rw [← this]; simp) hb

theorem afterFirst_skip (F s : Str) (hF : ' ' ∉ F) (hne : F ≠ []) : ∀ (t : Str), ' ' ∉ t →
    ¬ F <:+ t → afterFirst F (t ++ ' ' :: s) = afterFirst F s
  | [], _, _ => by
    apply afterFirst_cons
    intro hp
    cases F with
    | nil => exact hne rfl
    | cons f fs =>
      obtain ⟨r, hr⟩ := hp
      simp only [List.cons_append, List.cons.injEq] at hr
      exact hF (by simp [hr.1])
  | c :: t, ht, hsuf => by
    have hno : ¬ F ++ [' '] <+: (c :: t) ++ ' ' :: s := by
      intro hp
      have hp2 : (c :: t) ++ [' '] <+: (c :: t) ++ ' ' :: s := ⟨s, by simp⟩
      rcases List.prefix_or_prefix_of_prefix hp hp2 with h1 | h1
      · have := sp_prefix_eq F (c :: t) ht h1
        exact hsuf (this ▸ List.suffix_refl _)
      · have := sp_prefix_eq (c :: t) F hF h1
        exact hsuf (this ▸ List.suffix_refl _)
    have hrec := afterFirst_skip F s hF hne t (fun hm => ht (by simp [hm]))
      (fun h => hsuf (h.trans (List.suffix_cons c t)))
    rw [← hrec]
    exact afterFirst_cons F c (t ++ ' ' :: s) hno

/-! ## What follows an occurrence -/

theorem isdigit09_of_isspace (d : Char) (h : isspace d = true) : isdigit09 d = false := by
  simp only [isspace, Bool.or_eq_true, beq_iff_eq] at h
  rcases h with ((((h | h) | h) | h) | h) | h <;> subst h <;> decide

theorem dropWhile_allWs_append (w s : Str) (hw : allWs w) :
    (w ++ s).dropWhile isspace = s.dropWhile isspace := by
  induction w with
  | nil => rfl
  | cons c cs ih =>
    have hc : isspace c = true := hw c (by simp)
    simp only [List.cons_append, List.dropWhile_cons, hc, if_true]
    exact ih (fun d hd => hw d (by simp [hd]))

theorem takeWhile_token (t post : Str) (ht : wsFree t) (hp : tokenEnd post) :
    (t ++ post).takeWhile (fun x => !isspace x) = t := by
  induction t with
  | nil =>
    cases post with
    | nil => rfl
    | cons d ds =>
      have : isspace d = true := hp d (by simp)
      simp [List.takeWhile_cons, this]
  | cons c cs ih =>
    have hc : isspace c = false := ht c (by simp)
    simp only [List.cons_append, List.takeWhile_cons, hc, Bool.not_false, if_true]
    rw [ih (fun d hd => ht d (by simp [hd]))]

theorem dashLed_token (t post : Str) (hne : t ≠ []) (hp : tokenEnd post) :
    dashLed (t ++ post) = dashLed t := by
  cases t with
  | nil => exact absurd rfl hne
  | cons c cs =>
    cases cs with
    | cons d ds => rfl
    | nil =>
      cases post with
      | nil => rfl
      | cons d ds =>
        have : isspace d = true := hp d (by simp)
        have h0 : isdigit09 ' ' = false := by decide
        simp [dashLed, isdigit09_of_isspace d this, h0]

theorem valsAfter_allWs (F w : Str) (hw : allWs w) : valsAfter F w = [] := by
  have : w.dropWhile isspace = [] := by
    rw [List.dropWhile_eq_nil_iff]
    exact hw
  simp [valsAfter, this]

theorem valsAfter_token (F w t post : Str) (hw : allWs w) (ht : wsFree t) (hne : t ≠ [])
    (hp : tokenEnd post) :
    valsAfter F (w ++ (t ++ post)) =
      if dashLed t then vals F (t ++ post) else t :: vals F (t.tail ++ post) := by
  cases t with
  | nil => exact absurd rfl hne
  | cons c cs =>
    have hc : isspace c = false := ht c (by simp)
    have hd : (w ++ (c :: cs ++ post)).dropWhile isspace = c :: (cs ++ post) := by
      rw [dropWhile_allWs_append w _ hw]
      simp [List.dropWhile_cons, hc]
    have h1 := dashLed_token (c :: cs) post hne hp
    have h2 := takeWhile_token (c :: cs) post ht hp
    simp only [List.cons_append] at h1 h2
    simp only [valsAfter, hd, h1, h2, List.tail_cons]
    rfl

/-- A run of the loop body that does not return moves `start` forward. -/
theorem find_opt_body_next_gt (B F : Str) (start : Nat) (out : List Str)
    (hs : start < B.length) (start' : Nat) (out' : List Str)
    (h : find_opt_body B (F ++ [' ']) start out = Step.next start' out') :
    start < start' ∧ start' ≤ B.length := by
  rw [find_opt_body_eq B F start out (by omega)] at h
  cases hf : findAux (F ++ [' ']) (B.drop start) with
  | none => simp [hf] at h
  | some k =>
    cases hd : ((B.drop start).drop (k + (F.length + 1))).dropWhile isspace with
    | nil =>
      simp only [hf, hd] at h
      cases h
    | cons c rest =>
      have h1 := (List.dropWhile_suffix (l := (B.drop start).drop (k + (F.length + 1)))
        isspace).length_le
      rw [hd] at h1
      simp only [List.length_cons, List.length_drop] at h1
      simp only [hf, hd] at h
      split at h
      · cases h
        omega
      · cases h
        omega

/-! ## Tokens -/

theorem tokens_example :
    tokens " -q  ab\t-v ".toList = ["-q".toList, "ab".toList, "-v".toList] := by
  decide

theorem splitOnP_append_sep (c : Char) (R : Str) (hc : isspace c = true) : ∀ (A : Str),
    (A ++ c :: R).splitOnP isspace = A.splitOnP isspace ++ R.splitOnP isspace
  | [] => by simp [hc]
  | x :: A => by
    have ih := splitOnP_append_sep c R hc A
    by_cases hx : isspace x = true
    · simp [hx, ih]
    · simp only [List.cons_append, List.splitOnP_cons, hx, Bool.false_eq_true, if_false, ih]
      cases hA : A.splitOnP isspace with
      | nil => exact absurd hA (List.splitOnP_ne_nil _ _)
      | cons a as => rfl

theorem tokens_nil : tokens [] = [] := by
  simp [tokens]

theorem tokens_append_sep (A R : Str) (c : Char) (hc : isspace c = true) :
    tokens (A ++ c :: R) = tokens A ++ tokens R := by
  simp [tokens, splitOnP_append_sep c R hc A]

theorem tokens_wsFree (t : Str) (ht : wsFree t) (hne : t ≠ []) : tokens t = [t] := by
  have : t.splitOnP isspace = [t] :=
    List.splitOnP_eq_single isspace _ (fun x hx => by simp [ht x hx])
  simp [tokens, this, hne]

theorem tokens_allWs_append (s : Str) : ∀ (w : Str), allWs w → tokens (w ++ s) = tokens s
  | [], _ => rfl
  | c :: w, hw => by
    have h1 := tokens_append_sep [] (w ++ s) c (hw c (by simp))
    simp only [List.nil_append, tokens_nil] at h1
    rw [List.cons_append, h1]
    exact tokens_allWs_append s w (fun d hd => hw d (by simp [hd]))

theorem tokens_token (t post : Str) (ht : wsFree t) (hne : t ≠ []) (hp : tokenEnd post) :
    tokens (t ++ post) = t :: tokens post := by
  cases post with
  | nil => simp [tokens_wsFree t ht hne, tokens_nil]
  | cons d ds =>
    have hd : isspace d = true := hp d (by simp)
    have h1 := tokens_append_sep [] ds d hd
    simp only [List.nil_append, tokens_nil] at h1
    rw [tokens_append_sep t ds d hd, tokens_wsFree t ht hne, h1]
    rfl

theorem dropWhile_nonws_token (post : Str) (hp : tokenEnd post) : ∀ (t : Str), wsFree t →
    (t ++ post).dropWhile (fun x => !isspace x) = post
  | [], _ => by
    cases post with
    | nil => rfl
    | cons d ds =>
      have hd : isspace d = true := hp d (by simp)
      simp [List.dropWhile_cons, hd]
  | c :: t, ht => by
    have hc : isspace c = false := ht c (by simp)
    simp only [List.cons_append, List.dropWhile_cons, hc, Bool.not_false, if_true]
    exact dropWhile_nonws_token post hp t (fun d hd => ht d (by simp [hd]))

/-- A text is white space only, or it is white space, then a maximal token, then a rest. -/
theorem split_text (X : Str) :
    X.dropWhile isspace = [] ∨
      ∃ w t post, X = w ++ (t ++ post) ∧ X.dropWhile isspace = t ++ post ∧
        allWs w ∧ wsFree t ∧ t ≠ [] ∧ tokenEnd post := by
  cases hd : X.dropWhile isspace with
  | nil => exact Or.inl rfl
  | cons c rest =>
    right
    have hc : isspace c = false := dropWhile_head_not isspace X c rest hd
    refine ⟨X.takeWhile isspace, (c :: rest).takeWhile (fun x => !isspace x),
      (c :: rest).dropWhile (fun x => !isspace x), ?_, ?_, ?_, ?_, ?_, ?_⟩
    · rw [List.takeWhile_append_dropWhile, ← hd, List.takeWhile_append_dropWhile]
    · rw [List.takeWhile_append_dropWhile]
    · intro d hdm
      exact (List.mem_takeWhile_imp hdm)
    · intro d hdm
      have := List.mem_takeWhile_imp hdm
      simpa using this
    · simp [List.takeWhile_cons, hc]
    · intro d hdm
      cases hp : (c :: rest).dropWhile (fun x => !isspace x) with
      | nil => simp [hp] at hdm
      | cons e es =>
        have := dropWhile_head_not (fun x => !isspace x) (c :: rest) e es hp
        simp only [hp, List.head?_cons, Option.mem_def, Option.some.injEq] at hdm
        subst hdm
        simpa using this

theorem dropWhile_nonws_occ (R : Str) : ∀ (Y : Str),
    ∃ Z, (Y ++ ' ' :: R).dropWhile (fun x => !isspace x) = Z ++ ' ' :: R
  | [] => ⟨[], by
    have : isspace ' ' = true := by decide
    simp [List.dropWhile_cons, this]⟩
  | c :: Y => by
    by_cases hc : isspace c = true
    · exact ⟨c :: Y, by simp [List.dropWhile_cons, hc]⟩
    · obtain ⟨Z, hZ⟩ := dropWhile_nonws_occ R Y
      exact ⟨Z, by simp [List.dropWhile_cons, hc, hZ]⟩

theorem vals_sublist_aux (F : Str) : ∀ (n : Nat) (s : Str), s.length ≤ n →
    List.Sublist (vals F s) (tokens (s.dropWhile (fun x => !isspace x))) := by
  intro n
  induction n with
  | zero =>
    intro s hs
    have : s = [] := List.length_eq_zero.mp (by omega)
    subst this
    rw [vals_eq, afterFirst_nil]
    exact List.nil_sublist _
  | succ n ih =>
    intro s hs
    rw [vals_eq]
    cases hX : afterFirst F s with
    | none => exact List.nil_sublist _
    | some X =>
      simp only
      obtain ⟨pre, hpre⟩ := afterFirst_some F s X hX
      rcases split_text X with h0 | ⟨w, t, post, hXe, _, hw, ht, hne, hp⟩
      · simp [valsAfter, h0]
      · have hlen : (t ++ post).length ≤ n := by
          have := congrArg List.length hpre
          rw [hXe] at this
          simp only [List.length_append, List.length_cons] at this hs ⊢
          omega
        obtain ⟨Z, hZ⟩ := dropWhile_nonws_occ X (pre ++ F)
        have htok : tokens (s.dropWhile (fun x => !isspace x)) =
            tokens Z ++ t :: tokens post := by
          rw [hpre, hZ, tokens_append_sep Z X ' ' (by decide), hXe,
            tokens_allWs_append _ w hw, tokens_token t post ht hne hp]
        rw [htok, hXe, valsAfter_token F w t post hw ht hne hp]
        have hdp := dropWhile_nonws_token post hp
        by_cases hdash : dashLed t = true
        · simp only [hdash, if_true]
          have := ih (t ++ post) hlen
          rw [hdp t ht] at this
          exact this.trans ((List.sublist_cons_self t _).trans (List.sublist_append_right _ _))
        · simp only [hdash, Bool.false_eq_true, if_false]
          have htl : wsFree t.tail := fun c hc => ht c (List.mem_of_mem_tail hc)
          have := ih (t.tail ++ post) (by
            simp only [List.length_append, List.length_tail] at hlen ⊢
            omega)
          rw [hdp t.tail htl] at this
          exact (this.cons₂ t).trans (List.sublist_append_right _ _)

theorem vals_sublist_tokens (F s : Str) : List.Sublist (vals F s) (tokens s) := by
  refine (vals_sublist_aux F s.length s (le_refl _)).trans ?_
  cases s with
  | nil => exact List.Sublist.refl _
  | cons c cs =>
    by_cases hc : isspace c = true
    · simp [List.dropWhile_cons, hc]
    · rcases split_text (c :: cs) with h0 | ⟨w, t, post, _, hdw, _, ht, hne, hp⟩
      · simp [List.dropWhile_cons, hc] at h0
      · have hs : c :: cs = t ++ post := by
          rw [← hdw]
          simp [List.dropWhile_cons, hc]
        rw [hs, dropWhile_nonws_token post hp t ht, tokens_token t post ht hne hp]
        exact List.sublist_cons_self t _

theorem tokens_mem (s : Str) : ∀ t ∈ tokens s, t ≠ [] ∧ wsFree t := by
  intro t ht
  simp only [tokens, List.mem_filter] at ht
  refine ⟨by simpa using ht.2, ?_⟩
  have key : ∀ (xs : Str), ∀ l ∈ xs.splitOnP isspace, wsFree l := by
    intro xs
    induction xs with
    | nil =>
      intro l hl
      simp only [List.splitOnP_nil, List.mem_singleton] at hl
      subst hl
      exact fun c hc => absurd hc (List.not_mem_nil c)
    | cons x xs ih =>
      intro l hl
      by_cases hx : isspace x = true
      · simp only [List.splitOnP_cons, hx, if_true, List.mem_cons] at hl
        rcases hl with hl | hl
        · subst hl
          exact fun c hc => absurd hc (List.not_mem_nil c)
        · exact ih l hl
      · simp only [List.splitOnP_cons, hx, Bool.false_eq_true, if_false] at hl
        cases hsp : xs.splitOnP isspace with
        | nil => exact absurd hsp (List.splitOnP_ne_nil _ _)
        | cons a as =>
          rw [hsp] at hl ih
          simp only [List.modifyHead_cons, List.mem_cons] at hl
          rcases hl with hl | hl
          · subst hl
            intro c hc
            rcases List.mem_cons.mp hc with h1 | h1
            · subst h1
              simpa using hx
            · exact ih a (by simp) c h1
          · exact ih l (by simp [hl])
  exact key s t ht.1

/-! ## Buffers made of tokens and single spaces -/

theorem intercalate_cons_eq (t : Str) (ts : List Str) :
    [' '].intercalate (t :: ts) = t ++ spaced ts := by
  induction ts generalizing t with
  | nil => simp [List.intercalate, spaced]
  | cons t2 r ih =>
    have := ih t2
    simp only [List.intercalate, List.intersperse, List.flatten] at this ⊢
    rw [this]
    simp [spaced]

theorem tokenEnd_spaced (ts : List Str) : tokenEnd (spaced ts) := by
  cases ts with
  | nil => simp [tokenEnd, spaced]
  | cons t r =>
    intro c hc
    simp only [spaced, List.head?_cons, Option.mem_def, Option.some.injEq] at hc
    subst hc
    decide

theorem dashLed_append_space (F X : Str) (hF : dashLed F = true) :
    dashLed (F ++ ' ' :: X) = true := by
  have hne : F ≠ [] := by
    intro h
    subst h
    simp [dashLed] at hF
  rw [dashLed_token F (' ' :: X) hne (fun c hc => by
    simp only [List.head?_cons, Option.mem_def, Option.some.injEq] at hc
    subst hc
    decide)]
  exact hF

/-- One step of the scan over a token `t` that is followed by a space: `u` is what is left
of `t` ahead of `start`, all of it or all but its first character. -/
theorem vals_token_step (F t u s : Str) (hF : wsFree F) (hne : F ≠ [])
    (hFd : dashLed F = true) (ht : wsFree t)
    (hu : u = t ∨ (dashLed t = false ∧ u = t.tail)) :
    vals F (u ++ ' ' :: s) = if F <:+ t then valsAfter F s else vals F s := by
  have hsF : ' ' ∉ F := space_not_mem F hF
  have hut : u <:+ t := by
    rcases hu with h | h
    · exact h ▸ List.suffix_refl _
    · exact h.2 ▸ List.tail_suffix t
  have huws : wsFree u := fun c hc => ht c (hut.subset hc)
  by_cases hsuf : F <:+ t
  · simp only [hsuf, if_true]
    obtain ⟨pre, hpre⟩ := hsuf
    have hu2 : ∃ pre2, u = pre2 ++ F := by
      rcases hu with h | h
      · exact ⟨pre, by rw [h, hpre]⟩
      · cases pre with
        | nil =>
          simp only [List.nil_append] at hpre
          rw [← hpre, hFd] at h
          exact absurd h.1 (by simp)
        | cons c pre =>
          refine ⟨pre, ?_⟩
          rw [h.2, ← hpre]
          rfl
    obtain ⟨pre2, hpre2⟩ := hu2
    have hsp : ' ' ∉ pre2 ++ F := hpre2 ▸ space_not_mem u huws
    rw [vals_eq, hpre2, afterFirst_occ F s pre2 hsp]
  · simp only [hsuf, if_false]
    have hskip := afterFirst_skip F s hsF hne u (space_not_mem u huws)
      (fun h => hsuf (h.trans hut))
    rw [vals_eq, hskip, ← vals_eq]

theorem vals_spaced (F : Str) (hF : wsFree F) (hne : F ≠ []) (hFd : dashLed F = true) :
    ∀ (ts : List Str), (∀ t ∈ ts, t ≠ [] ∧ wsFree t) → ∀ (t u : Str), t ≠ [] → wsFree t →
      (u = t ∨ (dashLed t = false ∧ u = t.tail)) →
      vals F (u ++ spaced ts) = followers F (t :: ts)
  | [], _, t, u, _, ht, hu => by
    have huws : wsFree u := by
      rcases hu with h | h
      · exact h ▸ ht
      · exact h.2 ▸ fun c hc => ht c (List.mem_of_mem_tail hc)
    simp [spaced, followers, vals_wsFree F u huws]
  | t2 :: rest, hts, t, u, _, ht, hu => by
    have ht2 := hts t2 (by simp)
    have hrest : ∀ x ∈ rest, x ≠ [] ∧ wsFree x := fun x hx => hts x (by simp [hx])
    have ih1 := vals_spaced F hF hne hFd rest hrest t2 t2 ht2.1 ht2.2 (Or.inl rfl)
    rw [spaced, vals_token_step F t u _ hF hne hFd ht hu, followers]
    by_cases hsuf : F <:+ t
    · have h1 := valsAfter_token F [] t2 (spaced rest) (by simp [allWs]) ht2.2 ht2.1
        (tokenEnd_spaced rest)
      simp only [List.nil_append] at h1
      simp only [hsuf, if_true, true_and, h1]
      by_cases hd : dashLed t2 = true
      · simp [hd, ih1]
      · have hdf : dashLed t2 = false := by simpa using hd
        have ih2 := vals_spaced F hF hne hFd rest hrest t2 t2.tail ht2.1 ht2.2
          (Or.inr ⟨hdf, rfl⟩)
        simp [hdf, ih2]
    · simp [hsuf, ih1]

/-! ## The conversion of a value to an integer -/

theorem toInt32_of_fits (x : Int) (h1 : -2 ^ 31 ≤ x) (h2 : x < 2 ^ 31) : toInt32 x = x := by
  unfold toInt32
  have e1 : (2 : Int) ^ 31 = 2147483648 := by norm_num
  have e2 : (2 : Int) ^ 32 = 4294967296 := by norm_num
  rw [e1] at h1 h2 ⊢
  rw [e2]
  omega

theorem atoi_eq (t : Str) (c : Char) (cs : Str) (ht : t = c :: cs) (hc : isspace c = false) :
    atoi t = toInt32 (if t.head? = some '-' then
      - (decVal ((digitsOf t).takeWhile isdigit09) : Int)
      else (decVal ((digitsOf t).takeWhile isdigit09) : Int)) := by
  subst ht
  have hd : (c :: cs).dropWhile isspace = c :: cs := by simp [List.dropWhile_cons, hc]
  unfold atoi
  rw [hd]
  by_cases h1 : c = '-'
  · subst h1
    simp [digitsOf]
  · by_cases h2 : c = '+'
    · subst h2
      simp [digitsOf]
    · have h3 : ¬ (c = '+' ∨ c = '-') := fun h => h.elim h2 h1
      simp only [digitsOf, h3, if_false, List.head?_cons, Option.some.injEq, h1]
      split
      · rename_i rest heq
        cases heq
        exact absurd rfl h1
      · rename_i rest heq
        cases heq
        exact absurd rfl h2
      · simp [h2]

/-- The longest prefix of decimal digits is the run of digits `takeWhile` reads. -/
theorem take_eq_takeWhile_digits : ∀ (D : Str) (j : Nat), j ≤ D.length →
    (∀ c ∈ D.take j, isdigit09 c = true) →
    (∀ m, j < m → m ≤ D.length → ¬ ∀ c ∈ D.take m, isdigit09 c = true) →
    D.take j = D.takeWhile isdigit09
  | [], j, _, _, _ => by simp
  | d :: D, j, hj, hall, hmax => by
    by_cases hd : isdigit09 d = true
    · cases j with
      | zero =>
        exfalso
        exact hmax 1 (by omega) (by simp) (by simp [hd])
      | succ j =>
        simp only [List.take_succ_cons, List.takeWhile_cons, hd, if_true, List.cons.injEq,
          true_and]
        apply take_eq_takeWhile_digits D j (by simpa using hj)
          (fun c hc => hall c (by simp [hc]))
        intro m hm hml hm2
        apply hmax (m + 1) (by omega) (by simpa using hml)
        intro c hc
        simp only [List.take_succ_cons, List.mem_cons] at hc
        rcases hc with h | h
        · exact h ▸ hd
        · exact hm2 c h
    · cases j with
      | zero => simp [List.takeWhile_cons, hd]
      | succ j =>
        exfalso
        exact hd (hall d (by simp))

theorem takeWhile_digits_all (D : Str) : ∀ c ∈ D.takeWhile isdigit09, isdigit09 c = true :=
  fun _ hc => List.mem_takeWhile_imp hc

/-- The digits of a prefix of `t` that is not empty are a prefix of the digits of `t`. -/
theorem digitsOf_take (t : Str) (n : Nat) (hn : 0 < n) :
    digitsOf (t.take n) = (digitsOf t).take (n - (t.length - (digitsOf t).length)) ∧
      (t.take n).head? = t.head? := by
  cases t with
  | nil => simp [digitsOf]
  | cons c cs =>
    obtain ⟨k, rfl⟩ : ∃ k, n = k + 1 := ⟨n - 1, by omega⟩
    by_cases hs : c = '+' ∨ c = '-'
    · simp [digitsOf, hs]
    · simp [digitsOf, hs]

theorem digitsOf_length (t : Str) : (digitsOf t).length ≤ t.length := by
  cases t with
  | nil => simp [digitsOf]
  | cons c cs =>
    by_cases hs : c = '+' ∨ c = '-'
    · simp [digitsOf, hs]
    · simp [digitsOf, hs]

theorem isNumeral_take_zero (t : Str) : ¬ isNumeral (t.take 0) := by
  simp [isNumeral, digitsOf]

theorem numeral_prefix_digits (t : Str) (n : Nat) (hn : n ≤ t.length)
    (hnum : isNumeral (t.take n))
    (hmax : ∀ m, n < m → m ≤ t.length → ¬ isNumeral (t.take m)) :
    digitsOf (t.take n) = (digitsOf t).takeWhile isdigit09 ∧ (t.take n).head? = t.head? := by
  have hpos : 0 < n := by
    rcases Nat.eq_zero_or_pos n with h | h
    · subst h
      exact absurd hnum (isNumeral_take_zero t)
    · exact h
  obtain ⟨h1, h2⟩ := digitsOf_take t n hpos
  refine ⟨?_, h2⟩
  have hlen := digitsOf_length t
  generalize hk : t.length - (digitsOf t).length = k at h1
  rw [h1]
  unfold isNumeral at hnum
  rw [h1] at hnum
  have hjpos : 0 < n - k := by
    rcases Nat.eq_zero_or_pos (n - k) with h | h
    · rw [h] at hnum
      exact absurd rfl hnum.1
    · exact h
  apply take_eq_takeWhile_digits (digitsOf t) (n - k) (by omega) hnum.2
  intro m hm hml hall
  apply hmax (m + k) (by omega) (by omega)
  obtain ⟨h3, _⟩ := digitsOf_take t (m + k) (by omega)
  rw [hk] at h3
  have hmk : m + k - k = m := by omega
  rw [hmk] at h3
  unfold isNumeral
  rw [h3]
  refine ⟨?_, hall⟩
  intro h0
  have := congrArg List.length h0
  simp only [List.length_take, List.length_nil] at this
  omega

theorem no_numeral_prefix_digits (t : Str) (h : ∀ n, n ≤ t.length → ¬ isNumeral (t.take n)) :
    (digitsOf t).takeWhile isdigit09 = [] := by
  by_contra hne
  have hlen := digitsOf_length t
  have hpl : 0 < ((digitsOf t).takeWhile isdigit09).length := List.length_pos.mpr hne
  have hle : ((digitsOf t).takeWhile isdigit09).length ≤ (digitsOf t).length :=
    (List.takeWhile_prefix isdigit09).length_le
  generalize hk : t.length - (digitsOf t).length = k
  generalize hj : ((digitsOf t).takeWhile isdigit09).length = j at hpl hle
  apply h (j + k) (by omega)
  obtain ⟨h3, _⟩ := digitsOf_take t (j + k) (by omega)
  rw [hk] at h3
  have hjk : j + k - k = j := by omega
  have h4 : (digitsOf t).take (j + k - k) = (digitsOf t).takeWhile isdigit09 := by
    rw [hjk, ← hj, take_takeWhile_length]
  unfold isNumeral
  rw [h3, h4]
  exact ⟨hne, takeWhile_digits_all _⟩

theorem vals_mem_token (F s v : Str) (h : v ∈ vals F s) : v ≠ [] ∧ wsFree v :=
  tokens_mem s v ((vals_sublist_tokens F s).subset h)

/-! ## Every occurrence that is followed by a value -/

theorem afterFirst_of_occ (F X : Str) (hF : ' ' ∉ F) : ∀ (pre : Str),
    ∃ X', afterFirst F (pre ++ F ++ ' ' :: X) = some X' ∧
      (X' = X ∨ ∃ pre1 pre2, pre = pre1 ++ F ++ ' ' :: pre2 ∧ X' = pre2 ++ F ++ ' ' :: X)
  | [] => ⟨X, by simpa using afterFirst_head F X, Or.inl rfl⟩
  | c :: pre => by
    by_cases hp : F ++ [' '] <+: (c :: pre) ++ F ++ ' ' :: X
    · have hin := occ_disjoint F (c :: pre) X hF (by simp) hp
      obtain ⟨pre2, hpre2⟩ := hin
      refine ⟨pre2 ++ F ++ ' ' :: X, ?_, Or.inr ⟨[], pre2, by simp [← hpre2], rfl⟩⟩
      rw [afterFirst_start F _ hp, ← hpre2]
      congr 1
      have : F ++ [' '] ++ pre2 ++ F ++ ' ' :: X = (F ++ [' ']) ++ (pre2 ++ F ++ ' ' :: X) := by
        simp
      rw [this, List.drop_append_of_le_length (by simp)]
      simp
    · obtain ⟨X', h1, h2⟩ := afterFirst_of_occ F X hF pre
      refine ⟨X', ?_, ?_⟩
      · rw [← h1]
        exact afterFirst_cons F c (pre ++ F ++ ' ' :: X) hp
      · rcases h2 with h2 | ⟨pre1, pre2, h3, h4⟩
        · exact Or.inl h2
        · exact Or.inr ⟨c :: pre1, pre2, by simp [h3], h4⟩

theorem dropWhile_append_nonws (R : Str) (c : Char) (rest : Str) (hR : R = c :: rest)
    (hc : isspace c = false) : ∀ (mid : Str),
    (mid ++ R).dropWhile isspace = mid.dropWhile isspace ++ R
  | [] => by
    subst hR
    simp [List.dropWhile_cons, hc]
  | d :: mid => by
    by_cases hd : isspace d = true
    · simp only [List.cons_append, List.dropWhile_cons, hd, if_true]
      exact dropWhile_append_nonws R c rest hR hc mid
    · simp [List.dropWhile_cons, hd]

theorem precededByFlag_of_suffix (F m pre : Str) (hm : m <:+ pre) (h : precededByFlag F m) :
    precededByFlag F pre := by
  obtain ⟨u, hu⟩ := hm
  obtain ⟨pre0, w0, h1, h2⟩ := h
  exact ⟨u ++ pre0, w0, by rw [← hu, h1]; simp, h2⟩

theorem valsAfter_cons (F X : Str) (c : Char) (rest : Str)
    (h : X.dropWhile isspace = c :: rest) :
    valsAfter F X = if dashLed (c :: rest) then vals F (c :: rest)
      else (c :: rest).takeWhile (fun x => !isspace x) :: vals F rest := by
  simp only [valsAfter, h]

/-- An occurrence of the flag that is followed by a value is not passed over, when the flag
name is dash-led or the occurrence is not itself the value of an earlier occurrence. -/
theorem vals_occurrence (F X : Str) (hF : wsFree F) (hne : F ≠ []) (c : Char) (rest : Str)
    (hX : X.dropWhile isspace = c :: rest) (hd : dashLed (c :: rest) = false) :
    ∀ (n : Nat) (pre : Str), pre.length ≤ n →
      (dashLed F = true ∨ ¬ precededByFlag F pre) →
      ∃ front, vals F (pre ++ F ++ ' ' :: X) =
        front ++ (c :: rest).takeWhile (fun x => !isspace x) :: vals F rest := by
  have hsF : ' ' ∉ F := space_not_mem F hF
  obtain ⟨f, fs, hfs⟩ := List.exists_cons_of_ne_nil hne
  have hf : isspace f = false := hF f (by simp [hfs])
  have hhere : valsAfter F X =
      (c :: rest).takeWhile (fun x => !isspace x) :: vals F rest := by
    rw [valsAfter_cons F X c rest hX, hd]
    simp
  intro n
  induction n with
  | zero =>
    intro pre hlen hc
    have : pre = [] := List.length_eq_zero.mp (by omega)
    subst this
    refine ⟨[], ?_⟩
    rw [List.nil_append, List.nil_append, vals_eq, afterFirst_head]
    exact hhere
  | succ n ih =>
    intro pre hlen hc
    obtain ⟨X', h1, h2⟩ := afterFirst_of_occ F X hsF pre
    rw [vals_eq, h1]
    simp only
    rcases h2 with h2 | ⟨pre1, pre2, h3, h4⟩
    · exact ⟨[], by rw [h2, hhere]; rfl⟩
    · have hR : F ++ ' ' :: X = f :: (fs ++ ' ' :: X) := by rw [hfs]; rfl
      have hdw : X'.dropWhile isspace = pre2.dropWhile isspace ++ (F ++ ' ' :: X) := by
        rw [h4, List.append_assoc]
        exact dropWhile_append_nonws _ f _ hR hf pre2
      have hsuf2 : pre2 <:+ pre := ⟨pre1 ++ F ++ [' '], by rw [h3]; simp⟩
      have hlen2 : pre2.length < pre.length := by
        rw [h3]
        simp only [List.length_append, List.length_cons]
        omega
      have hm3 : pre2.dropWhile isspace <:+ pre2 := List.dropWhile_suffix isspace
      cases hm : pre2.dropWhile isspace with
      | nil =>
        rw [hm, List.nil_append] at hdw
        rw [hR] at hdw
        rw [valsAfter_cons F X' f _ hdw, ← hR]
        have hadj : precededByFlag F pre :=
          ⟨pre1, pre2, h3, List.dropWhile_eq_nil_iff.mp hm⟩
        rcases hc with hc | hc
        · rw [dashLed_append_space F X hc]
          simp only [if_true]
          obtain ⟨front, hfront⟩ := ih [] (by simp) (Or.inl hc)
          exact ⟨front, by simpa using hfront⟩
        · exact absurd hadj hc
      | cons x m3 =>
        rw [hm] at hdw hm3
        have hdw2 : X'.dropWhile isspace = x :: (m3 ++ F ++ ' ' :: X) := by
          rw [hdw]
          simp
        rw [valsAfter_cons F X' x _ hdw2]
        have hl3 : (x :: m3).length ≤ pre2.length := hm3.length_le
        by_cases hdash : dashLed (x :: (m3 ++ F ++ ' ' :: X)) = true
        · simp only [hdash, if_true]
          obtain ⟨front, hfront⟩ := ih (x :: m3) (by omega) (hc.imp id (fun h hadj => h
            (precededByFlag_of_suffix F _ _ (hm3.trans hsuf2) hadj)))
          exact ⟨front, by simpa using hfront⟩
        · simp only [hdash, Bool.false_eq_true, if_false]
          obtain ⟨front, hfront⟩ := ih m3 (by simp only [List.length_cons] at hl3; omega)
            (hc.imp id (fun h hadj => h (precededByFlag_of_suffix F _ _
              ((List.suffix_cons x m3).trans (hm3.trans hsuf2)) hadj)))
          rw [hfront]
          exact ⟨_ :: front, rfl⟩

theorem occursAt_decomp (B F : Str) (p : Nat) (h : occursAt B F p) :
    B = B.take p ++ F ++ ' ' :: B.drop (p + (F.length + 1)) ∧ (B.take p).length = p := by
  obtain ⟨R, hR⟩ := h
  have h1 : B.drop (p + (F.length + 1)) = R := by
    rw [← List.drop_drop, ← hR, List.drop_append_of_le_length (by simp)]
    simp
  have hlen : p < B.length := by
    by_contra hge
    rw [List.drop_eq_nil_iff.mpr (by omega)] at hR
    simp at hR
  refine ⟨?_, by simp; omega⟩
  rw [h1]
  have h2 := List.take_append_drop p B
  rw [← hR] at h2
  conv_lhs => rw [← h2]
  simp

theorem dashLed_takeWhile (X : Str) (c : Char) (rest : Str)
    (hX : X.dropWhile isspace = c :: rest) :
    dashLed ((c :: rest).takeWhile fun x => !isspace x) = dashLed (c :: rest) := by
  rcases split_text X with h0 | ⟨w, t, post, _, hdw, _, ht, hne, hp⟩
  · rw [hX] at h0
    cases h0
  · rw [hX] at hdw
    rw [hdw, takeWhile_token t post ht hp, dashLed_token t post hne hp]

theorem vals_mem_of_occurrence (F pre X : Str) (hF : wsFree F) (hne : F ≠ [])
    (htok : (X.dropWhile isspace).takeWhile (fun x => !isspace x) ≠ [])
    (hnd : dashLed ((X.dropWhile isspace).takeWhile fun x => !isspace x) = false)
    (hc : dashLed F = true ∨ ¬ precededByFlag F pre) :
    ∃ front back, vals F (pre ++ F ++ ' ' :: X) =
      front ++ (X.dropWhile isspace).takeWhile (fun x => !isspace x) :: back := by
  cases hX : X.dropWhile isspace with
  | nil =>
    rw [hX] at htok
    exact absurd rfl htok
  | cons c rest =>
    rw [hX] at hnd
    rw [dashLed_takeWhile X c rest hX] at hnd
    obtain ⟨front, hfront⟩ := vals_occurrence F X hF hne c rest hX hnd pre.length pre
      (le_refl _) hc
    exact ⟨front, _, hfront⟩

theorem two_occurrences (F pre1 X1 pre2 X2 : Str) (hF : ' ' ∉ F)
    (h : pre1 ++ F ++ ' ' :: X1 = pre2 ++ F ++ ' ' :: X2) (hlt : pre1.length < pre2.length) :
    ∃ mid, pre2 = pre1 ++ F ++ ' ' :: mid ∧ X1 = mid ++ F ++ ' ' :: X2 := by
  have hp1 : pre1 <+: pre1 ++ F ++ ' ' :: X1 := ⟨F ++ ' ' :: X1, by simp⟩
  have hp2 : pre2 <+: pre1 ++ F ++ ' ' :: X1 := ⟨F ++ ' ' :: X2, by rw [h]; simp⟩
  obtain ⟨u, hu⟩ := List.prefix_of_prefix_length_le hp1 hp2 (by omega)
  have hune : u ≠ [] := by
    intro h0
    subst h0
    simp only [List.append_nil] at hu
    rw [hu] at hlt
    omega
  have h3 : F ++ ' ' :: X1 = u ++ F ++ ' ' :: X2 := by
    have : pre1 ++ (F ++ ' ' :: X1) = pre1 ++ (u ++ F ++ ' ' :: X2) := by
      rw [← List.append_assoc, h, ← hu]
      simp
    exact List.append_cancel_left this
  have hpre : F ++ [' '] <+: u ++ F ++ ' ' :: X2 := ⟨X1, by rw [← h3]; simp⟩
  obtain ⟨mid, hmid⟩ := occ_disjoint F u X2 hF hune hpre
  refine ⟨mid, by rw [← hu, ← hmid]; simp, ?_⟩
  rw [← hmid] at h3
  have : (F ++ [' ']) ++ X1 = (F ++ [' ']) ++ (mid ++ F ++ ' ' :: X2) := by
    simpa using h3
  exact List.append_cancel_left this

/-- Two occurrences of the flag that are each followed by a value yield two values. -/
theorem vals_two_values (F pre1 mid X2 : Str) (hF : wsFree F) (hne : F ≠ [])
    (c1 : Char) (rest1 : Str)
    (hX1 : (mid ++ F ++ ' ' :: X2).dropWhile isspace = c1 :: rest1)
    (hd1 : dashLed (c1 :: rest1) = false)
    (c2 : Char) (rest2 : Str) (hX2 : X2.dropWhile isspace = c2 :: rest2)
    (hd2 : dashLed (c2 :: rest2) = false)
    (hc : dashLed F = true ∨
      (¬ precededByFlag F pre1 ∧ ¬ precededByFlag F (pre1 ++ F ++ ' ' :: mid))) :
    2 ≤ (vals F (pre1 ++ F ++ ' ' :: (mid ++ F ++ ' ' :: X2))).length := by
  obtain ⟨f, fs, hfs⟩ := List.exists_cons_of_ne_nil hne
  have hf : isspace f = false := hF f (by simp [hfs])
  obtain ⟨front, hfront⟩ := vals_occurrence F (mid ++ F ++ ' ' :: X2) hF hne c1 rest1 hX1 hd1
    pre1.length pre1 (le_refl _) (hc.imp id (fun h => h.1))
  rw [hfront]
  have hR : F ++ ' ' :: X2 = f :: (fs ++ ' ' :: X2) := by rw [hfs]; rfl
  have hdw : (mid ++ F ++ ' ' :: X2).dropWhile isspace =
      mid.dropWhile isspace ++ (F ++ ' ' :: X2) := by
    rw [List.append_assoc]
    exact dropWhile_append_nonws _ f _ hR hf mid
  rw [hdw] at hX1
  have hm3 : mid.dropWhile isspace <:+ mid := List.dropWhile_suffix isspace
  cases hm : mid.dropWhile isspace with
  | nil =>
    exfalso
    rw [hm, List.nil_append] at hX1
    rcases hc with hc | hc
    · have := dashLed_append_space F X2 hc
      rw [hX1, hd1] at this
      cases this
    · exact hc.2 ⟨pre1, mid, rfl, List.dropWhile_eq_nil_iff.mp hm⟩
  | cons x m3 =>
    rw [hm] at hX1 hm3
    have hrest : rest1 = m3 ++ F ++ ' ' :: X2 := by
      simp only [List.cons_append, List.cons.injEq] at hX1
      rw [← hX1.2]
      simp
    obtain ⟨front2, hfront2⟩ := vals_occurrence F X2 hF hne c2 rest2 hX2 hd2 m3.length m3
      (le_refl _) (hc.imp id (fun h hadj => h.2 (precededByFlag_of_suffix F _ _
        (((List.suffix_cons x m3).trans hm3).trans
          ⟨pre1 ++ F ++ [' '], by simp⟩) hadj)))
    rw [hrest, hfront2]
    simp only [List.length_append, List.length_cons]
    omega

/-! ## Induction along the scan -/

/-- The way the scan goes over the rest of the buffer: nothing is found, or the first
occurrence of the flag is followed by a dash-led token, at which the scan resumes, or by a
value, one character into which the scan resumes. -/
theorem vals_induction (F : Str) (P : Str → List Str → Prop)
    (hnil : ∀ s, P s [])
    (hdash : ∀ s pre w t post, s = pre ++ F ++ ' ' :: (w ++ (t ++ post)) → allWs w →
      wsFree t → t ≠ [] → tokenEnd post → dashLed t = true →
      P (t ++ post) (vals F (t ++ post)) → P s (vals F (t ++ post)))
    (hval : ∀ s pre w t post, s = pre ++ F ++ ' ' :: (w ++ (t ++ post)) → allWs w →
      wsFree t → t ≠ [] → tokenEnd post → dashLed t = false →
      P (t.tail ++ post) (vals F (t.tail ++ post)) → P s (t :: vals F (t.tail ++ post))) :
    ∀ s, P s (vals F s) := by
  have key : ∀ (n : Nat) (s : Str), s.length ≤ n → P s (vals F s) := by
    intro n
    induction n with
    | zero =>
      intro s hs
      have : s = [] := List.length_eq_zero.mp (by omega)
      subst this
      rw [vals_eq, afterFirst_nil]
      exact hnil []
    | succ n ih =>
      intro s hs
      rw [vals_eq]
      cases hX : afterFirst F s with
      | none => exact hnil s
      | some X =>
        simp only
        obtain ⟨pre, hpre⟩ := afterFirst_some F s X hX
        rcases split_text X with h0 | ⟨w, t, post, hXe, _, hw, ht, hne, hp⟩
        · have : valsAfter F X = [] := by simp [valsAfter, h0]
          rw [this]
          exact hnil s
        · have hlen : (t ++ post).length ≤ n := by
            have := congrArg List.length hpre
            rw [hXe] at this
            simp only [List.length_append, List.length_cons] at this hs ⊢
            omega
          rw [hXe] at hpre
          rw [hXe, valsAfter_token F w t post hw ht hne hp]
          by_cases hd : dashLed t = true
          · simp only [hd, if_true]
            exact hdash s pre w t post hpre hw ht hne hp hd (ih _ hlen)
          · have hdf : dashLed t = false := by simpa using hd
            simp only [hdf, Bool.false_eq_true, if_false]
            exact hval s pre w t post hpre hw ht hne hp hdf (ih _ (by
              simp only [List.length_append, List.length_tail] at hlen ⊢
              omega))
  exact fun s => key s.length s (le_refl _)

/-! ## Counting the occurrences of the flag -/

theorem occurrenceCount_cons (c : Char) (cs F : Str) :
    occurrenceCount (c :: cs) F =
      (if occursAt (c :: cs) F 0 then 1 else 0) + occurrenceCount cs F := by
  unfold occurrenceCount
  rw [List.length_cons, List.range_succ_eq_map, List.countP_cons, List.countP_map]
  have hfun : ((fun p => decide (occursAt (c :: cs) F p)) ∘ Nat.succ) =
      fun p => decide (occursAt cs F p) := by
    funext p
    simp [occursAt]
  rw [hfun]
  by_cases h0 : occursAt (c :: cs) F 0
  · simp [h0]
    omega
  · simp [h0]

theorem occurrenceCount_example :
    occurrenceCount "-q ab -v -q cd".toList "-q".toList = 2 ∧
      occurrenceCount "freq 5".toList "q".toList = 1 := by
  decide

theorem occurrenceCount_append_le (s F : Str) : ∀ (u : Str),
    occurrenceCount s F ≤ occurrenceCount (u ++ s) F
  | [] => le_refl _
  | c :: u => by
    rw [List.cons_append, occurrenceCount_cons]
    have := occurrenceCount_append_le s F u
    omega

theorem occurrenceCount_head (F X : Str) :
    1 + occurrenceCount X F ≤ occurrenceCount (F ++ ' ' :: X) F := by
  have hocc : occursAt (F ++ ' ' :: X) F 0 := by
    unfold occursAt
    exact ⟨X, by simp⟩
  cases F with
  | nil =>
    rw [List.nil_append] at hocc ⊢
    rw [occurrenceCount_cons, if_pos hocc]
  | cons f fs =>
    rw [List.cons_append] at hocc ⊢
    rw [occurrenceCount_cons, if_pos hocc]
    have h2 := occurrenceCount_append_le X (f :: fs) [' ']
    have h3 := occurrenceCount_append_le (' ' :: X) (f :: fs) fs
    simp only [List.singleton_append] at h2
    omega

theorem occurrenceCount_after (F pre w u : Str) :
    1 + occurrenceCount u F ≤ occurrenceCount (pre ++ F ++ ' ' :: (w ++ u)) F := by
  have h1 := occurrenceCount_head F (w ++ u)
  have h2 := occurrenceCount_append_le (F ++ ' ' :: (w ++ u)) F pre
  have h3 := occurrenceCount_append_le u F w
  rw [← List.append_assoc] at h2
  omega

theorem vals_length_le (F s : Str) : (vals F s).length ≤ occurrenceCount s F := by
  apply vals_induction F (fun s r => r.length ≤ occurrenceCount s F)
  · intro s
    exact Nat.zero_le _
  · intro s pre w t post hs _ _ _ _ _ ih
    have := occurrenceCount_after F pre w (t ++ post)
    rw [← hs] at this
    omega
  · intro s pre w t post hs _ _ hne _ _ ih
    obtain ⟨c, cs, hcs⟩ := List.exists_cons_of_ne_nil hne
    have h1 := occurrenceCount_after F pre w (t ++ post)
    rw [← hs] at h1
    have h2 := occurrenceCount_append_le (t.tail ++ post) F [c]
    have h3 : [c] ++ (t.tail ++ post) = t ++ post := by rw [hcs]; rfl
    rw [h3] at h2
    simp only [List.length_cons]
    omega

theorem vals_sound (F s : Str) : ∀ v ∈ vals F s,
    ∃ pre w post, s = pre ++ F ++ ' ' :: (w ++ (v ++ post)) ∧ allWs w ∧ tokenEnd post := by
  apply vals_induction F (fun s r => ∀ v ∈ r,
    ∃ pre w post, s = pre ++ F ++ ' ' :: (w ++ (v ++ post)) ∧ allWs w ∧ tokenEnd post)
  · intro s v hv
    exact absurd hv (List.not_mem_nil v)
  · intro s pre w t post hs _ _ _ _ _ ih v hv
    obtain ⟨pre1, w1, post1, h1, h2, h3⟩ := ih v hv
    refine ⟨pre ++ F ++ ' ' :: w ++ pre1, w1, post1, ?_, h2, h3⟩
    rw [hs, h1]
    simp
  · intro s pre w t post hs hw _ hne hp _ ih v hv
    rcases List.mem_cons.mp hv with h | h
    · subst h
      exact ⟨pre, w, post, hs, hw, hp⟩
    · obtain ⟨pre1, w1, post1, h1, h2, h3⟩ := ih v h
      obtain ⟨c, cs, hcs⟩ := List.exists_cons_of_ne_nil hne
      refine ⟨pre ++ F ++ ' ' :: w ++ c :: pre1, w1, post1, ?_, h2, h3⟩
      have h4 : t ++ post = c :: (t.tail ++ post) := by rw [hcs]; rfl
      rw [hs, h4, h1]
      simp

theorem vals_not_dashLed (F s : Str) : ∀ v ∈ vals F s, dashLed v = false := by
  apply vals_induction F (fun _ r => ∀ v ∈ r, dashLed v = false)
  · intro s v hv
    exact absurd hv (List.not_mem_nil v)
  · intro s pre w t post _ _ _ _ _ _ ih
    exact ih
  · intro s pre w t post _ _ _ _ _ hd ih v hv
    rcases List.mem_cons.mp hv with h | h
    · exact h ▸ hd
    · exact ih v h

/-- What follows an occurrence of the flag when the rest of the buffer is one string
without white space: nothing when it is empty or dash-led, and the string itself
otherwise. -/
theorem valsAfter_single (F t : Str) (ht : wsFree t) :
    valsAfter F t = if t = [] ∨ dashLed t = true then [] else [t] := by
  by_cases hne : t = []
  · subst hne
    simp [valsAfter_allWs F [] (fun c hc => absurd hc (List.not_mem_nil c))]
  · have h1 := valsAfter_token F [] t [] (by simp [allWs]) ht hne (by simp [tokenEnd])
    simp only [List.nil_append, List.append_nil] at h1
    rw [h1, vals_wsFree F t ht,
      vals_wsFree F t.tail (fun c hc => ht c (List.mem_of_mem_tail hc))]
    by_cases hd : dashLed t = true
    · simp [hd]
    · simp [hd, hne]

/-! ## Claims -/

/-- C1: when the flag name followed by one space is not a contiguous substring of the
buffer, `find_opt` returns the empty list. -/
theorem find_opt_absent (B F : Str) (h : ¬ (F ++ [' ']) <:+: B) :
    find_opt B F = some [] := by
  rw [find_opt_eq]
  cases hf : findAux (F ++ [' ']) B with
  | none => rw [vals_none F B hf]
  | some k =>
    exfalso
    apply h
    have hp := (findAux_spec _ _ _ hf).2
    exact hp.isInfix.trans (List.drop_suffix k B).isInfix

theorem find_opt_absent_witness :
    (¬ ("q".toList ++ [' ']) <:+: "--quadratic ab".toList) ∧
      find_opt "--quadratic ab".toList "q".toList = some [] :=
  ⟨by decide, find_opt_absent _ _ (by decide)⟩

/-- C2: a buffer made of the flag, one space, a run `w` of white space and a string `t`
without white space yields the empty list when `t` is empty or is a dash not followed by
a decimal digit, and exactly `[t]` otherwise. -/
theorem find_opt_single_occurrence (F w t : Str) (hw : allWs w) (ht : wsFree t) :
    find_opt (F ++ [' '] ++ w ++ t) F =
      some (if t = [] ∨ dashLed t = true then [] else [t]) := by
  have hB : F ++ [' '] ++ w ++ t = F ++ ' ' :: (w ++ t) := by simp
  rw [find_opt_eq, hB, vals_eq, afterFirst_head]
  simp only
  by_cases hne : t = []
  · subst hne
    simp [valsAfter_allWs F w hw]
  · have h1 := valsAfter_token F w t [] hw ht hne (by simp [tokenEnd])
    simp only [List.append_nil] at h1
    rw [h1, vals_wsFree F t ht,
      vals_wsFree F t.tail (fun c hc => ht c (List.mem_of_mem_tail hc))]
    by_cases hd : dashLed t = true
    · simp [hd]
    · simp [hd, hne]

theorem find_opt_single_occurrence_witness :
    (allWs [] ∧ wsFree "0.5".toList ∧
      find_opt ("--l".toList ++ [' '] ++ [] ++ "0.5".toList) "--l".toList =
        some ["0.5".toList]) ∧
    (allWs [] ∧ wsFree "-5.2".toList ∧
      find_opt ("-r".toList ++ [' '] ++ [] ++ "-5.2".toList) "-r".toList =
        some ["-5.2".toList]) ∧
    (allWs [] ∧ wsFree "-v".toList ∧
      find_opt ("-r".toList ++ [' '] ++ [] ++ "-v".toList) "-r".toList = some []) :=
  ⟨⟨by decide, by decide,
      (find_opt_single_occurrence "--l".toList [] "0.5".toList (by decide) (by decide)).trans
        (by decide)⟩,
    ⟨by decide, by decide,
      (find_opt_single_occurrence "-r".toList [] "-5.2".toList (by decide) (by decide)).trans
        (by decide)⟩,
    ⟨by decide, by decide,
      (find_opt_single_occurrence "-r".toList [] "-v".toList (by decide) (by decide)).trans
        (by decide)⟩⟩

/-- C3: for a dash-led flag name without white space and a buffer made of non-empty
tokens without white space joined by single spaces, `find_opt` returns, in order, the
tokens that are not dash-led and come right after a token ending with the flag name. -/
theorem find_opt_repeated_flag (F : Str) (ts : List Str) (hF : wsFree F) (hne : F ≠ [])
    (hFd : dashLed F = true) (hts : ∀ t ∈ ts, t ≠ [] ∧ wsFree t) :
    find_opt ([' '].intercalate ts) F = some (followers F ts) := by
  rw [find_opt_eq]
  cases ts with
  | nil =>
    have : [' '].intercalate ([] : List Str) = [] := rfl
    rw [this, vals_eq, afterFirst_nil]
    rfl
  | cons t rest =>
    have ht := hts t (by simp)
    rw [intercalate_cons_eq,
      vals_spaced F hF hne hFd rest (fun x hx => hts x (by simp [hx])) t t ht.1 ht.2
        (Or.inl rfl)]

theorem find_opt_repeated_flag_witness :
    (wsFree "-q".toList ∧ "-q".toList ≠ [] ∧ dashLed "-q".toList = true ∧
      (∀ t ∈ ["-q".toList, "ab".toList, "-v".toList, "-q".toList, "cd".toList],
        t ≠ [] ∧ wsFree t) ∧
      find_opt "-q ab -v -q cd".toList "-q".toList = some ["ab".toList, "cd".toList]) ∧
    (wsFree "--l".toList ∧ "--l".toList ≠ [] ∧ dashLed "--l".toList = true ∧
      (∀ t ∈ ["--l".toList, "0.5".toList, "--l".toList, "0.7".toList],
        t ≠ [] ∧ wsFree t) ∧
      find_opt "--l 0.5 --l 0.7".toList "--l".toList =
        some ["0.5".toList, "0.7".toList]) :=
  ⟨⟨by decide, by decide, by decide, by decide,
      find_opt_repeated_flag "-q".toList
        ["-q".toList, "ab".toList, "-v".toList, "-q".toList, "cd".toList]
        (by decide) (by decide) (by decide) (by decide)⟩,
    ⟨by decide, by decide, by decide, by decide,
      find_opt_repeated_flag "--l".toList
        ["--l".toList, "0.5".toList, "--l".toList, "0.7".toList]
        (by decide) (by decide) (by decide) (by decide)⟩⟩

/-- C4, as amended: when the buffer reads, at some index, the flag name (not empty, no
white space in it), a space, white space and then a maximal token that is not dash-led,
that token is among the values `find_opt` returns, provided the flag name is itself
dash-led or the text before that index does not end with the flag name, a space and
white space only. -/
theorem find_opt_complete (B F : Str) (p : Nat) (hF : wsFree F) (hne : F ≠ [])
    (hv : valueAt B F p) (hc : dashLed F = true ∨ ¬ precededByFlag F (B.take p)) :
    ∃ r, find_opt B F = some r ∧ tokenAfter B F p ∈ r := by
  obtain ⟨hocc, htok, hnd⟩ := hv
  obtain ⟨hB, _⟩ := occursAt_decomp B F p hocc
  obtain ⟨front, back, h⟩ := vals_mem_of_occurrence F (B.take p)
    (B.drop (p + (F.length + 1))) hF hne htok hnd hc
  rw [← hB] at h
  refine ⟨vals F B, find_opt_eq B F, ?_⟩
  rw [h]
  exact List.mem_append_right _ (List.mem_cons_self _ _)

theorem find_opt_complete_witness :
    wsFree "-q".toList ∧ "-q".toList ≠ [] ∧ valueAt "-q -q -q 5".toList "-q".toList 6 ∧
      dashLed "-q".toList = true ∧
      ∃ r, find_opt "-q -q -q 5".toList "-q".toList = some r ∧
        tokenAfter "-q -q -q 5".toList "-q".toList 6 ∈ r :=
  ⟨by decide, by decide, by decide, by decide,
    find_opt_complete "-q -q -q 5".toList "-q".toList 6 (by decide) (by decide) (by decide)
      (Or.inl (by decide))⟩

/-- C4, as stated, fails: in `q q 5` the flag `q` occurs at index 2 followed by a space and
the token `5`, which is not dash-led, and `find_opt` returns `["q"]`, without `5`. -/
theorem find_opt_complete_counterexample :
    wsFree "q".toList ∧ "q".toList ≠ [] ∧ valueAt "q q 5".toList "q".toList 2 ∧
      tokenAfter "q q 5".toList "q".toList 2 = "5".toList ∧
      find_opt "q q 5".toList "q".toList = some ["q".toList] ∧
      "5".toList ∉ ["q".toList] := by
  decide

/-- C5: `find_opt_int` and `find_opt_float` return true exactly when `find_opt` yields
one element, hence false both for the empty list and for two or more elements. -/
theorem typed_found_iff_single {D Fl : Type} (atof : Str → D) (toFloat : D → Fl)
    (B F : Str) (vi : Int) (vf : Fl) :
    ∃ (r : List Str) (bi : Bool) (xi : Int) (bf : Bool) (xf : Fl),
      find_opt B F = some r ∧
      find_opt_int B F vi = some (bi, xi) ∧
      find_opt_float atof toFloat B F vf = some (bf, xf) ∧
      (bi = true ↔ r.length = 1) ∧ (bf = true ↔ r.length = 1) ∧
      (r = [] → bi = false ∧ bf = false) ∧
      (2 ≤ r.length → bi = false ∧ bf = false) := by
  by_cases h1 : (vals F B).length = 1
  · refine ⟨vals F B, true, atoi ((vals F B).headD []), true,
      toFloat (atof ((vals F B).headD [])), find_opt_eq B F, ?_, ?_, ?_⟩
    · simp [find_opt_int, find_opt_parse, find_opt_eq, h1]
    · simp [find_opt_float, find_opt_parse, find_opt_eq, h1]
    · refine ⟨by simp [h1], by simp [h1], ?_, ?_⟩
      · intro h0
        rw [h0] at h1
        simp at h1
      · intro h2
        omega
  · refine ⟨vals F B, false, vi, false, vf, find_opt_eq B F, ?_, ?_, ?_⟩
    · simp [find_opt_int, find_opt_parse, find_opt_eq, h1]
    · simp [find_opt_float, find_opt_parse, find_opt_eq, h1]
    · simp [h1]

/-- C6, as amended: when the flag name (not empty, no white space in it) occurs at two
indices of the buffer, each time followed by a space, white space and a token that is not
dash-led, and the flag name is dash-led or neither occurrence comes right after the flag
name, a space and white space only, then `find_opt_int` and `find_opt_float` return
false and leave the value as it was. -/
theorem typed_not_found_of_two_values {D Fl : Type} (atof : Str → D) (toFloat : D → Fl)
    (B F : Str) (p1 p2 : Nat) (vi : Int) (vf : Fl) (hF : wsFree F) (hne : F ≠ [])
    (hlt : p1 < p2) (h1 : valueAt B F p1) (h2 : valueAt B F p2)
    (hc : dashLed F = true ∨
      (¬ precededByFlag F (B.take p1) ∧ ¬ precededByFlag F (B.take p2))) :
    find_opt_int B F vi = some (false, vi) ∧
      find_opt_float atof toFloat B F vf = some (false, vf) := by
  obtain ⟨hocc1, htok1, hnd1⟩ := h1
  obtain ⟨hocc2, htok2, hnd2⟩ := h2
  obtain ⟨hB1, hl1⟩ := occursAt_decomp B F p1 hocc1
  obtain ⟨hB2, hl2⟩ := occursAt_decomp B F p2 hocc2
  obtain ⟨mid, hmid1, hmid2⟩ := two_occurrences F (B.take p1) (B.drop (p1 + (F.length + 1)))
    (B.take p2) (B.drop (p2 + (F.length + 1))) (space_not_mem F hF)
    (by rw [← hB1, ← hB2]) (by omega)
  have hlen : 2 ≤ (vals F B).length := by
    unfold tokenAfter textAfter at htok1 hnd1 htok2 hnd2
    cases hX1 : (B.drop (p1 + (F.length + 1))).dropWhile isspace with
    | nil =>
      rw [hX1] at htok1
      exact absurd rfl htok1
    | cons c1 rest1 =>
      cases hX2 : (B.drop (p2 + (F.length + 1))).dropWhile isspace with
      | nil =>
        rw [hX2] at htok2
        exact absurd rfl htok2
      | cons c2 rest2 =>
        rw [hX1, dashLed_takeWhile _ c1 rest1 hX1] at hnd1
        rw [hX2, dashLed_takeWhile _ c2 rest2 hX2] at hnd2
        rw [hmid2] at hX1
        have key := vals_two_values F (B.take p1) mid (B.drop (p2 + (F.length + 1))) hF hne
          c1 rest1 hX1 hnd1 c2 rest2 hX2 hnd2 (by rw [← hmid1]; exact hc)
        rw [← hmid2, ← hB1] at key
        exact key
  have hne1 : (vals F B).length ≠ 1 := by omega
  constructor
  · simp [find_opt_int, find_opt_parse, find_opt_eq, hne1]
  · simp [find_opt_float, find_opt_parse, find_opt_eq, hne1]

theorem typed_not_found_of_two_values_witness :
    wsFree "--l".toList ∧ "--l".toList ≠ [] ∧ 0 < 8 ∧
      valueAt "--l 0.5 --l 0.7".toList "--l".toList 0 ∧
      valueAt "--l 0.5 --l 0.7".toList "--l".toList 8 ∧
      dashLed "--l".toList = true ∧
      find_opt_int "--l 0.5 --l 0.7".toList "--l".toList 3 = some (false, 3) ∧
      find_opt_float (fun _ => ()) (fun _ => ()) "--l 0.5 --l 0.7".toList "--l".toList () =
        some (false, ()) :=
  ⟨by decide, by decide, by decide, by decide, by decide, by decide,
    typed_not_found_of_two_values (fun _ => ()) (fun _ => ()) "--l 0.5 --l 0.7".toList
      "--l".toList 0 8 3 () (by decide) (by decide) (by decide) (by decide) (by decide)
      (Or.inl (by decide))⟩

/-- C6, as stated, fails: in `-r -r 5` the flag `-r` followed by a space occurs at the two
indices 0 and 3, and `find_opt_int` returns true, with the value 5. -/
theorem typed_found_counterexample :
    "-r".toList ≠ [] ∧ occursAt "-r -r 5".toList "-r".toList 0 ∧
      occursAt "-r -r 5".toList "-r".toList 3 ∧
      find_opt "-r -r 5".toList "-r".toList = some ["5".toList] ∧
      find_opt_int "-r -r 5".toList "-r".toList 0 = some (true, 5) ∧
      find_opt_float (fun s => s) (fun s => s) "-r -r 5".toList "-r".toList [] =
        some (true, "5".toList) := by
  decide

/-- C7: when `find_opt` yields the single value `t`, `find_opt_int` returns true and sets
the value to the integer denoted by the longest prefix of `t` made of an optional sign
and one or more decimal digits, provided that integer fits in a 32-bit `int`, and to
zero when `t` has no such prefix. -/
theorem find_opt_int_lenient (B F t : Str) (v : Int) (h : find_opt B F = some [t]) :
    (∀ n, n ≤ t.length → isNumeral (t.take n) →
      (∀ m, n < m → m ≤ t.length → ¬ isNumeral (t.take m)) →
      -2 ^ 31 ≤ numeralVal (t.take n) → numeralVal (t.take n) < 2 ^ 31 →
      find_opt_int B F v = some (true, numeralVal (t.take n))) ∧
    ((∀ n, n ≤ t.length → ¬ isNumeral (t.take n)) →
      find_opt_int B F v = some (true, 0)) := by
  have hv : vals F B = [t] := by
    rw [find_opt_eq] at h
    exact Option.some.inj h
  obtain ⟨htne, htws⟩ := vals_mem_token F B t (by simp [hv])
  obtain ⟨c, cs, hcs⟩ := List.exists_cons_of_ne_nil htne
  have hc : isspace c = false := htws c (by simp [hcs])
  have hint : find_opt_int B F v = some (true, atoi t) := by
    simp [find_opt_int, find_opt_parse, h]
  rw [hint, atoi_eq t c cs hcs hc]
  constructor
  · intro n hn hnum hmax hlo hhi
    obtain ⟨h1, h2⟩ := numeral_prefix_digits t n hn hnum hmax
    have hval : numeralVal (t.take n) =
        if t.head? = some '-' then - (decVal ((digitsOf t).takeWhile isdigit09) : Int)
        else (decVal ((digitsOf t).takeWhile isdigit09) : Int) := by
      simp only [numeralVal, h1, h2]
    rw [← hval, toInt32_of_fits _ hlo hhi]
  · intro hnone
    rw [no_numeral_prefix_digits t hnone]
    simp [decVal, toInt32]

theorem find_opt_int_lenient_witness :
    (find_opt "-n 12abc".toList "-n".toList = some ["12abc".toList] ∧
      find_opt_int "-n 12abc".toList "-n".toList 7 = some (true, 12)) ∧
    (find_opt "-n -7".toList "-n".toList = some ["-7".toList] ∧
      find_opt_int "-n -7".toList "-n".toList 7 = some (true, -7)) ∧
    (find_opt "-n abc".toList "-n".toList = some ["abc".toList] ∧
      find_opt_int "-n abc".toList "-n".toList 7 = some (true, 0)) :=
  ⟨⟨by decide,
      (find_opt_int_lenient "-n 12abc".toList "-n".toList "12abc".toList 7 (by decide)).1 2
        (by decide) (by decide) (fun m h1 h2 => by
          have h3 : m ≤ 5 := h2
          interval_cases m <;> decide)
        (by decide) (by decide)⟩,
    ⟨by decide,
      (find_opt_int_lenient "-n -7".toList "-n".toList "-7".toList 7 (by decide)).1 2
        (by decide) (by decide) (fun m h1 h2 => by
          have h3 : m ≤ 2 := h2
          omega)
        (by decide) (by decide)⟩,
    ⟨by decide,
      (find_opt_int_lenient "-n abc".toList "-n".toList "abc".toList 7 (by decide)).2
        (fun n hn => by
          have h3 : n ≤ 3 := hn
          interval_cases n <;> decide)⟩⟩

/-- C8: the list `find_opt` returns is a sublist of the maximal tokens of the buffer taken
from left to right (order kept, each token used at most once), and each element is a
non-empty string without white space. -/
theorem find_opt_sublist_tokens (B F : Str) :
    ∃ r, find_opt B F = some r ∧ List.Sublist r (tokens B) ∧
      ∀ v ∈ r, v ≠ [] ∧ wsFree v :=
  ⟨vals F B, find_opt_eq B F, vals_sublist_tokens F B,
    fun v hv => tokens_mem B v ((vals_sublist_tokens F B).subset hv)⟩

/-- C9: the scan loop of `find_opt` terminates for every buffer and flag name: a run of
the body that does not return moves `start` strictly forward, and the loop returns when
the body may run as many times as characters are left, at most `|B|` times in all. -/
theorem find_opt_loop_terminates (B F : Str) :
    (∀ (start : Nat) (out : List Str) (start' : Nat) (out' : List Str),
      start < B.length → find_opt_body B (F ++ [' ']) start out = Step.next start' out' →
      start < start') ∧
    (∀ (start : Nat) (out : List Str),
      ∃ r, find_opt_loop B (F ++ [' ']) (B.length - start) start out = some r) ∧
    (∀ out : List Str, ∃ r, find_opt3 B F out = some r) ∧
    ∃ r, find_opt B F = some r :=
  ⟨fun start out start' out' hs h => (find_opt_body_next_gt B F start out hs start' out' h).1,
    fun start out => ⟨_, find_opt_loop_eq B F (B.length - start) start out (le_refl _)⟩,
    fun out => ⟨_, find_opt3_eq B F out⟩,
    ⟨_, find_opt_eq B F⟩⟩

/-- C10: no boundary is required on the left of the flag: a buffer `P ++ F ++ " " ++ t`
without white space in `P` and `F` yields the same list as `F ++ " " ++ t`, whatever `t`
is, and for `t` without white space that list is `[t]`, or the empty list when `t` is
empty or dash-led: the flag name that ends the longer token `P ++ F` is matched. -/
theorem find_opt_no_left_boundary (F P t : Str) (hF : wsFree F) (hP : wsFree P) :
    find_opt (P ++ F ++ [' '] ++ t) F = find_opt (F ++ [' '] ++ t) F ∧
      (wsFree t →
        find_opt (P ++ F ++ [' '] ++ t) F =
            some (if t = [] ∨ dashLed t = true then [] else [t]) ∧
          find_opt (F ++ [' '] ++ t) F =
            some (if t = [] ∨ dashLed t = true then [] else [t])) := by
  have hB : P ++ F ++ [' '] ++ t = P ++ F ++ ' ' :: t := by simp
  have hB2 : F ++ [' '] ++ t = F ++ ' ' :: t := by simp
  have hsp : ' ' ∉ P ++ F := fun hm => by
    rcases List.mem_append.mp hm with h | h
    · exact space_not_mem P hP h
    · exact space_not_mem F hF h
  have h1 : find_opt (P ++ F ++ [' '] ++ t) F = some (valsAfter F t) := by
    rw [find_opt_eq, hB, vals_eq, afterFirst_occ F t P hsp]
  have h2 : find_opt (F ++ [' '] ++ t) F = some (valsAfter F t) := by
    rw [find_opt_eq, hB2, vals_eq, afterFirst_head]
  refine ⟨h1.trans h2.symm, fun ht => ?_⟩
  rw [h1, h2, valsAfter_single F t ht]
  exact ⟨rfl, rfl⟩

theorem find_opt_no_left_boundary_witness :
    wsFree "q".toList ∧ wsFree "fre".toList ∧ wsFree "5".toList ∧
      find_opt "freq 5".toList "q".toList = some ["5".toList] ∧
      find_opt "q 5".toList "q".toList = some ["5".toList] ∧
      find_opt "freq -v".toList "q".toList = some [] :=
  ⟨by decide, by decide, by decide,
    ((find_opt_no_left_boundary "q".toList "fre".toList "5".toList (by decide)
      (by decide)).2 (by decide)).1.trans (by decide),
    ((find_opt_no_left_boundary "q".toList "fre".toList "5".toList (by decide)
      (by decide)).2 (by decide)).2.trans (by decide),
    ((find_opt_no_left_boundary "q".toList "fre".toList "-v".toList (by decide)
      (by decide)).2 (by decide)).1.trans (by decide)⟩

/-- C12: every value `find_opt` returns is preceded in the buffer by an occurrence of the
flag: the buffer reads, from some index on, the flag name, one space, white space, the
value, and then a white space character or its end. -/
theorem find_opt_sound (B F : Str) :
    ∃ r, find_opt B F = some r ∧ ∀ v ∈ r, ∃ (p : Nat) (pre w post : Str),
      B = pre ++ F ++ ' ' :: (w ++ (v ++ post)) ∧ pre.length = p ∧ occursAt B F p ∧
        allWs w ∧ tokenEnd post := by
  refine ⟨vals F B, find_opt_eq B F, ?_⟩
  intro v hv
  obtain ⟨pre, w, post, h1, h2, h3⟩ := vals_sound F B v hv
  refine ⟨pre.length, pre, w, post, h1, rfl, ?_, h2, h3⟩
  unfold occursAt
  refine ⟨w ++ (v ++ post), ?_⟩
  have h4 : pre ++ F ++ ' ' :: (w ++ (v ++ post)) = pre ++ (F ++ ' ' :: (w ++ (v ++ post))) := by
    simp
  conv_rhs => rw [h1, h4, List.drop_left]
  simp

/-- C13: no value `find_opt` returns is dash-led, that is starts with a dash that is not
followed by a decimal digit: a lone `-`, `-v` and `-.5` are never returned, while `-5.2`
is returned for the buffer `-r -5.2`. -/
theorem find_opt_no_dashLed_value (B F : Str) :
    ∃ r, find_opt B F = some r ∧ (∀ v ∈ r, dashLed v = false) ∧
      "-".toList ∉ r ∧ "-v".toList ∉ r ∧ "-.5".toList ∉ r ∧
      find_opt "-r -5.2".toList "-r".toList = some ["-5.2".toList] := by
  have h := vals_not_dashLed F B
  refine ⟨vals F B, find_opt_eq B F, h, ?_, ?_, ?_, by decide⟩
  · intro hm
    exact absurd (h _ hm) (by decide)
  · intro hm
    exact absurd (h _ hm) (by decide)
  · intro hm
    exact absurd (h _ hm) (by decide)

/-- C14: for a dash-led flag name without white space, the buffer `F ++ " " ++ F ++ " " ++ t`
yields the same list as `F ++ " " ++ t`, whatever `t` is, and for `t` without white space
that list is `[t]`, or the empty list when `t` is empty or dash-led: the scan resumes
exactly at the dash-led token it did not take as a value, and finds the flag there. -/
theorem find_opt_resume_at_dash (F t : Str) (hF : wsFree F) (hFd : dashLed F = true) :
    find_opt (F ++ [' '] ++ F ++ [' '] ++ t) F = find_opt (F ++ [' '] ++ t) F ∧
      (wsFree t →
        find_opt (F ++ [' '] ++ F ++ [' '] ++ t) F =
            some (if t = [] ∨ dashLed t = true then [] else [t]) ∧
          find_opt (F ++ [' '] ++ t) F =
            some (if t = [] ∨ dashLed t = true then [] else [t])) := by
  have hne : F ≠ [] := by
    intro h
    subst h
    simp [dashLed] at hFd
  have hB : F ++ [' '] ++ F ++ [' '] ++ t = F ++ ' ' :: (F ++ ' ' :: t) := by simp
  have hB2 : F ++ [' '] ++ t = F ++ ' ' :: t := by simp
  have h0 := valsAfter_token F [] F (' ' :: t) (by simp [allWs]) hF hne (by
    intro c hc
    simp only [List.head?_cons, Option.mem_def, Option.some.injEq] at hc
    subst hc
    decide)
  simp only [List.nil_append, hFd, if_true] at h0
  have h2 : find_opt (F ++ [' '] ++ t) F = some (valsAfter F t) := by
    rw [find_opt_eq, hB2, vals_eq, afterFirst_head]
  have h1 : find_opt (F ++ [' '] ++ F ++ [' '] ++ t) F = some (valsAfter F t) := by
    rw [find_opt_eq, hB, vals_eq, afterFirst_head]
    simp only
    rw [h0, vals_eq, afterFirst_head]
  refine ⟨h1.trans h2.symm, fun ht => ?_⟩
  rw [h1, h2, valsAfter_single F t ht]
  exact ⟨rfl, rfl⟩

theorem find_opt_resume_at_dash_witness :
    wsFree "-r".toList ∧ dashLed "-r".toList = true ∧ wsFree "5".toList ∧
      find_opt "-r -r 5".toList "-r".toList = some ["5".toList] ∧
      find_opt "-r 5".toList "-r".toList = some ["5".toList] ∧
      find_opt "-r -r -5.2".toList "-r".toList = some ["-5.2".toList] :=
  ⟨by decide, by decide, by decide,
    ((find_opt_resume_at_dash "-r".toList "5".toList (by decide) (by decide)).2
      (by decide)).1.trans (by decide),
    ((find_opt_resume_at_dash "-r".toList "5".toList (by decide) (by decide)).2
      (by decide)).2.trans (by decide),
    ((find_opt_resume_at_dash "-r".toList "-5.2".toList (by decide) (by decide)).2
      (by decide)).1.trans (by decide)⟩

/-- C15: when neither `P ++ F` nor `t` is dash-led, with `P` and `t` not empty and no white
space in `F`, `P` and `t`, the buffer `F ++ " " ++ P ++ F ++ " " ++ t` yields
`[P ++ F, t]`: the value `P ++ F` is returned and then read again as an occurrence of the
flag. -/
theorem find_opt_rematch_in_value (F P t : Str) (hF : wsFree F) (hP : wsFree P)
    (hPne : P ≠ []) (ht : wsFree t) (htne : t ≠ []) (hd1 : dashLed (P ++ F) = false)
    (hd2 : dashLed t = false) :
    find_opt (F ++ [' '] ++ P ++ F ++ [' '] ++ t) F = some [P ++ F, t] := by
  have hB : F ++ [' '] ++ P ++ F ++ [' '] ++ t = F ++ ' ' :: ((P ++ F) ++ ' ' :: t) := by simp
  have hPF : wsFree (P ++ F) := by
    intro c hc
    rcases List.mem_append.mp hc with h | h
    · exact hP c h
    · exact hF c h
  have hend : tokenEnd (' ' :: t) := by
    intro c hc
    simp only [List.head?_cons, Option.mem_def, Option.some.injEq] at hc
    subst hc
    decide
  have h1 := valsAfter_token F [] (P ++ F) (' ' :: t) (by simp [allWs]) hPF (by simp [hPne])
    hend
  simp only [List.nil_append, hd1, Bool.false_eq_true, if_false] at h1
  obtain ⟨c, P1, hP1⟩ := List.exists_cons_of_ne_nil hPne
  have htail : (P ++ F).tail = P1 ++ F := by rw [hP1]; rfl
  have hsp : ' ' ∉ P1 ++ F := by
    intro hm
    apply space_not_mem (P ++ F) hPF
    rw [hP1]
    exact List.mem_cons_of_mem c hm
  have h2 := valsAfter_token F [] t [] (by simp [allWs]) ht htne (by simp [tokenEnd])
  simp only [List.nil_append, List.append_nil, hd2, Bool.false_eq_true, if_false] at h2
  rw [find_opt_eq, hB, vals_eq, afterFirst_head]
  simp only
  rw [h1, htail, vals_eq, afterFirst_occ F t P1 hsp]
  simp only
  rw [h2, vals_wsFree F t.tail (fun c hc => ht c (List.mem_of_mem_tail hc))]

theorem find_opt_rematch_in_value_witness :
    wsFree "q".toList ∧ wsFree "a".toList ∧ "a".toList ≠ [] ∧ wsFree "5".toList ∧
      "5".toList ≠ [] ∧ dashLed ("a".toList ++ "q".toList) = false ∧
      dashLed "5".toList = false ∧
      find_opt "q aq 5".toList "q".toList = some ["aq".toList, "5".toList] :=
  ⟨by decide, by decide, by decide, by decide, by decide, by decide, by decide,
    find_opt_rematch_in_value "q".toList "a".toList "5".toList (by decide) (by decide)
      (by decide) (by decide) (by decide) (by decide) (by decide)⟩

/-- C16: for a flag name that is not empty, has no white space and is not dash-led, and a
string `t` without white space, the buffer `F ++ " " ++ F ++ " " ++ t` yields `[F]`: the
occurrence of the flag that starts at the first character of the value is passed over,
and `t` is not returned. -/
theorem find_opt_skips_value_start (F t : Str) (hF : wsFree F) (hne : F ≠ [])
    (hnd : dashLed F = false) (ht : wsFree t) :
    find_opt (F ++ [' '] ++ F ++ [' '] ++ t) F = some [F] := by
  have hB : F ++ [' '] ++ F ++ [' '] ++ t = F ++ ' ' :: (F ++ ' ' :: t) := by simp
  have h1 := valsAfter_token F [] F (' ' :: t) (by simp [allWs]) hF hne (by
    intro c hc
    simp only [List.head?_cons, Option.mem_def, Option.some.injEq] at hc
    subst hc
    decide)
  simp only [List.nil_append, hnd, Bool.false_eq_true, if_false] at h1
  have hsF : ' ' ∉ F := space_not_mem F hF
  have hskip := afterFirst_skip F t hsF hne F.tail
    (fun hm => hsF (List.mem_of_mem_tail hm))
    (fun hs => by
      have h2 := hs.length_le
      have h3 : 0 < F.length := List.length_pos.mpr hne
      simp only [List.length_tail] at h2
      omega)
  rw [find_opt_eq, hB, vals_eq, afterFirst_head]
  simp only
  rw [h1, vals_eq, hskip, afterFirst_nospace F t (space_not_mem t ht)]

theorem find_opt_skips_value_start_witness :
    wsFree "q".toList ∧ "q".toList ≠ [] ∧ dashLed "q".toList = false ∧ wsFree "5".toList ∧
      find_opt "q q 5".toList "q".toList = some ["q".toList] :=
  ⟨by decide, by decide, by decide, by decide,
    find_opt_skips_value_start "q".toList "5".toList (by decide) (by decide) (by decide)
      (by decide)⟩

/-- C17: the three-argument `find_opt` appends to `out_values` and never clears it: the
vector it leaves is the initial one followed by the list that the two-argument `find_opt`
returns. -/
theorem find_opt3_appends (B F : Str) (out : List Str) :
    ∃ r, find_opt B F = some r ∧ find_opt3 B F out = some (out ++ r) ∧
      ∀ i (h : i < out.length), (out ++ r)[i]? = some (out.get ⟨i, h⟩) := by
  refine ⟨vals F B, find_opt_eq B F, find_opt3_eq B F out, ?_⟩
  intro i h
  rw [List.getElem?_append_left h]
  simp

/-- C18: when `find_opt_int` or `find_opt_float` returns false, the output variable
`value` holds what it held before the call. -/
theorem typed_false_keeps_value {D Fl : Type} (atof : Str → D) (toFloat : D → Fl)
    (B F : Str) (vi : Int) (vf : Fl) :
    ∃ (bi : Bool) (xi : Int) (bf : Bool) (xf : Fl),
      find_opt_int B F vi = some (bi, xi) ∧
      find_opt_float atof toFloat B F vf = some (bf, xf) ∧
      (bi = false → xi = vi) ∧ (bf = false → xf = vf) := by
  by_cases h1 : (vals F B).length = 1
  · refine ⟨true, atoi ((vals F B).headD []), true, toFloat (atof ((vals F B).headD [])),
      ?_, ?_, by simp, by simp⟩
    · simp [find_opt_int, find_opt_parse, find_opt_eq, h1]
    · simp [find_opt_float, find_opt_parse, find_opt_eq, h1]
  · refine ⟨false, vi, false, vf, ?_, ?_, fun _ => rfl, fun _ => rfl⟩
    · simp [find_opt_int, find_opt_parse, find_opt_eq, h1]
    · simp [find_opt_float, find_opt_parse, find_opt_eq, h1]

/-- C19: the list `find_opt` returns is no longer than the number of indices of the buffer
at which the flag name followed by a space occurs; with one such index it has at most
one element. -/
theorem find_opt_length_le_occurrences (B F : Str) :
    ∃ r, find_opt B F = some r ∧ r.length ≤ occurrenceCount B F ∧
      (occurrenceCount B F = 1 → r.length ≤ 1) := by
  have h := vals_length_le F B
  exact ⟨vals F B, find_opt_eq B F, h, fun h1 => by omega⟩

end vw_slim
